import Mathlib

/-!
Verification of the quote-extraction and retrieval-reconciliation engine of
`fetch_prices.py` (JSE daily price sheet feed).

The Python source is shallowly embedded: text is `List Char`, Python dicts
are association lists with insertion order and guarded insertion, floats are
exact rationals (`ℚ`), fetch faults are `Except` values, and the retrieval
loop of `main` is an explicit state-passing recursion.  Ghost fields
(`calls`, `attempts`) record which parser invocations and fetch attempts
happened; they influence nothing else.
-/

namespace JSE

/-- Text is modelled as a list of characters. -/
abbrev Str := List Char

/-- Characters treated as whitespace by Python `str.strip` / `re.split(r"\s+")`
(ASCII range, the range relevant to the PDF text model). -/
def isSpaceChar (c : Char) : Bool :=
  c = ' ' || c = '\t' || c = '\n' || c = '\r' || c = '\x0b' || c = '\x0c'

/-- Characters on which Python `str.splitlines` breaks lines (besides the
combined form CR LF). -/
def isLineBreakChar (c : Char) : Bool :=
  c = '\n' || c = '\r' || c = '\x0b' || c = '\x0c' || c = '\x1c' || c = '\x1d' ||
  c = '\x1e' || c = '\x85' || c = '\u2028' || c = '\u2029'

/-- Python `str.strip()`: drop leading and trailing whitespace. -/
def pyStrip (s : Str) : Str :=
  ((s.dropWhile isSpaceChar).reverse.dropWhile isSpaceChar).reverse

/-- The trailing punctuation stripped by `norm_sym` (`rstrip(".,;")`). -/
def isPunctChar (c : Char) : Bool :=
  c = '.' || c = ',' || c = ';'

/-- Python `str.rstrip(".,;")`. -/
def rstripPunct (s : Str) : Str :=
  (s.reverse.dropWhile isPunctChar).reverse

/-- Source `norm_sym` (line 108): `tok.strip().upper().rstrip(".,;")` —
keep internal dots, strip trailing punctuation. -/
def norm_sym (tok : Str) : Str :=
  rstripPunct ((pyStrip tok).map Char.toUpper)

/-- Helper for `splitWs`: accumulate the current (reversed) token while
scanning; emit it at each whitespace run or at the end. -/
def splitWsAux (cur : Str) : Str → List Str
  | [] => if cur.isEmpty then [] else [cur.reverse]
  | c :: rest =>
    if isSpaceChar c then
      if cur.isEmpty then splitWsAux [] rest
      else cur.reverse :: splitWsAux [] rest
    else splitWsAux (c :: cur) rest

/-- Source tokenization (line 129): `[t for t in re.split(r"\s+", line.strip()) if t]`
— split on whitespace runs, keeping only non-empty tokens. -/
def splitWs (s : Str) : List Str := splitWsAux [] s

/-- Helper for `splitlines`: accumulate the current (reversed) line. -/
def splitlinesAux (cur : Str) : Str → List Str
  | [] => if cur.isEmpty then [] else [cur.reverse]
  | '\r' :: '\n' :: rest => cur.reverse :: splitlinesAux [] rest
  | c :: rest =>
    if isLineBreakChar c then cur.reverse :: splitlinesAux [] rest
    else splitlinesAux (c :: cur) rest

/-- Python `str.splitlines()` (no trailing empty line). -/
def splitlines (s : Str) : List Str := splitlinesAux [] s

/-- The sign-free part of `NUM_RE`: `\d[\d,]*\.?\d*` as a full match. -/
def numBody : Str → Bool
  | [] => false
  | c :: r =>
    if c.isDigit then
      match r.dropWhile (fun d => d.isDigit || d = ',') with
      | [] => true
      | '.' :: rr => rr.all Char.isDigit
      | _ => false
    else false

/-- Source `NUM_RE` (line 37): full match of `^[+-]?\d[\d,]*\.?\d*$`. -/
def isNumTok (t : Str) : Bool :=
  match t with
  | c :: r => if c = '+' || c = '-' then numBody r else numBody (c :: r)
  | [] => false

/-- Value of a digit string, most significant digit first. -/
def digitsToNat (ds : Str) : Nat :=
  ds.foldl (fun a c => a * 10 + (c.toNat - 48)) 0

/-- Peel an optional leading sign from a numeric literal, giving the sign
factor and the remaining text. -/
def splitSign (s : Str) : Int × Str :=
  match s with
  | c :: r => if c = '+' then (1, r) else if c = '-' then (-1, r) else (1, c :: r)
  | [] => (1, [])

/-- The digits-dot-digits part of a Python decimal literal as an exact
rational. -/
def parseBody (sgn : Int) (s1 : Str) : Option ℚ :=
  let ipart := s1.takeWhile Char.isDigit
  let rest := s1.drop ipart.length
  match rest with
  | [] => if ipart.isEmpty then none else some (mkRat (sgn * digitsToNat ipart) 1)
  | '.' :: fpart =>
    if fpart.all Char.isDigit && (!ipart.isEmpty || !fpart.isEmpty) then
      some (mkRat (sgn * (digitsToNat ipart * 10 ^ fpart.length + digitsToNat fpart))
        (10 ^ fpart.length))
    else none
  | _ => none

/-- Python `float(s.replace(",", ""))` restricted to the decimal-literal
shapes that can reach it in the source, as an exact rational; `none` models
a raised `ValueError`. -/
def parseDecimal (s : Str) : Option ℚ :=
  let s0 := s.filter (fun c => c ≠ ',')
  parseBody (splitSign s0).1 (splitSign s0).2

/-- Python `\w` for the ASCII range: letters, digits, underscore. -/
def isWordChar (c : Char) : Bool := c.isAlphanum || c = '_'

/-- The twelve full month names of `MONTH_DATE_RE` (line 33), in the order
of the regex alternation. -/
def monthNames : List Str :=
  (["January", "February", "March", "April", "May", "June", "July",
    "August", "September", "October", "November", "December"]).map String.toList

/-- Does `p` occur as a leading segment of `cs`? -/
def listStartsWith : Str → Str → Bool
  | [], _ => true
  | _ :: _, [] => false
  | p :: ps, c :: cs => p = c && listStartsWith ps cs

/-- Length of the month-name alternation match at the head of `cs`, if any.
No month name is a leading segment of another, so at most one matches. -/
def matchMonth (cs : Str) : Option Nat :=
  monthNames.findSome? (fun m => if listStartsWith m cs then some m.length else none)

/-- Match the tail `,\s+\d{4}\b` of `MONTH_DATE_RE`, starting right after
the day digits; returns the number of characters consumed. -/
def matchTailAfterDay : Str → Option Nat
  | ',' :: cs1 =>
    let ws := cs1.takeWhile isSpaceChar
    if ws.isEmpty then none
    else
      let cs2 := cs1.drop ws.length
      if (cs2.takeWhile Char.isDigit).length = 4 then
        match cs2.drop 4 with
        | [] => some (1 + ws.length + 4)
        | c :: _ => if isWordChar c then none else some (1 + ws.length + 4)
      else none
  | _ => none

/-- Match `\d{1,2},\s+\d{4}\b` at the head of `cs`: the greedy two-digit day
is tried first, then the one-digit day, as the regex engine backtracks. -/
def matchDayTail : Str → Option Nat
  | [] => none
  | d1 :: rest =>
    if d1.isDigit then
      match rest with
      | [] => none
      | d2 :: rest2 =>
        if d2.isDigit then
          match matchTailAfterDay rest2 with
          | some n => some (2 + n)
          | none =>
            match matchTailAfterDay (d2 :: rest2) with
            | some n => some (1 + n)
            | none => none
        else
          match matchTailAfterDay (d2 :: rest2) with
          | some n => some (1 + n)
          | none => none
    else none

/-- Length of the `MONTH_DATE_RE` match anchored at the head of `cs`, where
`prevWord` says whether the character just before `cs` is a word character
(for the leading `\b`; the trailing `\b` is checked in `matchTailAfterDay`). -/
def matchLen (prevWord : Bool) (cs : Str) : Option Nat :=
  if prevWord then none
  else
    match matchMonth cs with
    | none => none
    | some ml =>
      let cs1 := cs.drop ml
      let ws := cs1.takeWhile isSpaceChar
      if ws.isEmpty then none
      else
        match matchDayTail (cs1.drop ws.length) with
        | some n => some (ml + ws.length + n)
        | none => none

/-- Leftmost regex search: try to match at each position in turn, keeping
track of whether the previous character is a word character. -/
def searchFrom (prevWord : Bool) : Str → Option Str
  | [] => none
  | c :: rest =>
    match matchLen prevWord (c :: rest) with
    | some n => some ((c :: rest).take n)
    | none => searchFrom (isWordChar c) rest

/-- Source `parse_sheet_date` (line 61): first `MONTH_DATE_RE` match in the
text, or the empty string. -/
def parse_sheet_date (text : Str) : Str :=
  (searchFrom false text).getD []

/-- The fixed provenance tag `"JSE_DAILY_PDF"`. -/
def sourceTag : Str := "JSE_DAILY_PDF".toList

/-- Source `Quote` dataclass (line 40). -/
structure Quote where
  symbol : Str
  last_price : Option ℚ := none
  as_at : Str := []
  source : Str := sourceTag
deriving Repr, DecidableEq, Inhabited

/-- A Python dict from symbol to quote: an association list in insertion
order, with keys kept unique by guarded insertion. -/
abbrev QuoteMap := List (Str × Quote)

/-- Dict lookup: the binding of the first matching key. -/
def dictFind (m : QuoteMap) (k : Str) : Option Quote :=
  match m with
  | [] => none
  | (k2, v) :: rest => if k2 = k then some v else dictFind rest k

/-- First-occurrence deduplication: the membership content of Python
`set(...)` together with a canonical order. -/
def dedupStr (seen : List Str) : List Str → List Str
  | [] => []
  | x :: xs => if x ∈ seen then dedupStr seen xs else x :: dedupStr (x :: seen) xs

/-- Lexicographic comparison of strings by code point, as Python `sorted`
compares `str` values. -/
def strLe : Str → Str → Bool
  | [], _ => true
  | _ :: _, [] => false
  | a :: xs, b :: ys => if a = b then strLe xs ys else decide (a < b)

/-- Insert into a sorted list. -/
def insertSorted (x : Str) : List Str → List Str
  | [] => [x]
  | y :: ys => if strLe x y then x :: y :: ys else y :: insertSorted x ys

/-- Insertion sort, modelling Python `sorted`. -/
def sortStr (l : List Str) : List Str := l.foldr insertSorted []

/-- Source `read_watchlist` (line 48), applied to the lines of the file:
strip each line, drop blanks and `#` comments, uppercase, then
`sorted(set(...))`.  Trailing punctuation is NOT stripped here. -/
def read_watchlist (ls : List Str) : List Str :=
  sortStr (dedupStr []
    ((ls.map pyStrip).filterMap
      (fun s => if s.isEmpty || s.head? = some '#' then none
                else some (s.map Char.toUpper))))

/-- Scan for a later symbol anchor (source lines 140-146): the first token
from position `i` onward whose normalization is wanted and unresolved. -/
def findLaterAnchor (want : List Str) (out : QuoteMap) : List Str → Nat → Option (Str × Nat)
  | [], _ => none
  | t :: rest, i =>
    let sym := norm_sym t
    if sym ∈ want ∧ dictFind out sym = none then some (sym, i)
    else findLaterAnchor want out rest (i + 1)

/-- Symbol-anchor selection for one line (source lines 133-148): the first
token if its normalization is wanted and unresolved, else the first such
token from position 1 onward, else no anchor. -/
def findAnchor (want : List Str) (out : QuoteMap) (toks : List Str) : Option (Str × Nat) :=
  match toks with
  | [] => none
  | t0 :: rest =>
    let sym0 := norm_sym t0
    if sym0 ∈ want ∧ dictFind out sym0 = none then some (sym0, 0)
    else findLaterAnchor want out rest 1

/-- Numeric tokens after the anchor (source lines 152-155): every token of
the line remainder matching `NUM_RE`, in order; non-matching tokens are
skipped, not terminators. -/
def collectNums (toks : List Str) (idx0 : Nat) : List Str :=
  (toks.drop (idx0 + 1)).filter isNumTok

/-- Source helper `f(i)` (line 157): the i-th collected numeric token as a
number, absent when out of range or unconvertible. -/
def numAt (nums : List Str) (i : Nat) : Option ℚ :=
  match nums.get? i with
  | none => none
  | some t => parseDecimal t

/-- Source price choice (lines 165-167): `close if close is not None else
last_traded`. -/
def linePrice (toks : List Str) (idx0 : Nat) : Option ℚ :=
  let nums := collectNums toks idx0
  match numAt nums 1 with
  | some c => some c
  | none => numAt nums 0

/-- The per-line loop of `parse_quotes` (source lines 126-172): skip blank
lines, find the anchor, record the quote, short-circuit once every wanted
symbol is resolved. -/
def parseLines (want : List Str) (as_at : Str) : List Str → QuoteMap → QuoteMap
  | [], out => out
  | line :: rest, out =>
    let ls := pyStrip line
    if ls.isEmpty then parseLines want as_at rest out
    else
      let toks := splitWs ls
      if toks.isEmpty then parseLines want as_at rest out
      else
        match findAnchor want out toks with
        | none => parseLines want as_at rest out
        | some (sym0, idx0) =>
          let out2 := out ++
            [(sym0, { symbol := sym0, last_price := linePrice toks idx0,
                      as_at := as_at, source := sourceTag })]
          if out2.length = want.length then out2
          else parseLines want as_at rest out2

/-- Page texts joined with newline separators (source line 122). -/
def joinPages (texts : List Str) : Str :=
  List.intercalate ['\n'] texts

/-- Source `parse_quotes` (line 113) on the extracted page texts: sheet
date label extracted once from the joined text, then the line scan.
`want = set(symbols)` is modelled by first-occurrence deduplication. -/
def parse_quotes (texts : List Str) (symbols : List Str) : QuoteMap × Str :=
  let full_text := joinPages texts
  let as_at := parse_sheet_date full_text
  let want := dedupStr [] symbols
  (parseLines want as_at (splitlines full_text) [], as_at)

/-- Source `latest_trading_date_iso` (line 177) with calendar dates
modelled as day numbers: today minus 0, 1, ..., `lookback - 1`. -/
def latest_trading_date_iso (today : Int) (lookback : Nat) : List Int :=
  (List.range lookback).map (fun d => today - Int.ofNat d)

/-- Ghost record of one successful `parse_quotes` invocation inside the
retrieval loop: which symbols were passed as the wanted set, and which
symbols were already resolved in the per-date combined mapping. -/
structure CallRec where
  date : Str
  market : Int
  wantedArg : List Str
  resolvedBefore : List Str
deriving Repr, DecidableEq, Inhabited

/-- The mutable state of `main` (source lines 207-210), plus the ghost
trace fields `calls` (successful parser invocations) and `attempts`
(every (date, market) fetch attempt). -/
structure LoopState where
  errors : List Str
  best_quotes : QuoteMap
  used_date : Str
  used_as_at : Str
  calls : List CallRec
  attempts : List (Str × Int)
deriving Repr, DecidableEq, Inhabited

/-- The state of `main` just before its date loop. -/
def initState : LoopState := ⟨[], [], [], [], [], []⟩

/-- Result of one market attempt or one market loop: the updated state,
the per-date combined mapping, the `got_any` flag, and whether the market
loop breaks. -/
structure StepResult where
  st : LoopState
  combined : QuoteMap
  got_any : Bool
  brk : Bool
deriving Repr, DecidableEq, Inhabited

/-- A fetch-and-extract oracle standing for `fetch_pdf` plus the
`pdfplumber` page-text extraction: either the page texts of the document,
or the message of the raised exception. -/
abbrev FetchOracle := Str → Int → Except Str (List Str)

/-- Source error record (line 232): `f"{date} market {mid}: {e}"`. -/
def mkErr (d : Str) (m : Int) (e : Str) : Str :=
  d ++ " market ".toList ++ (toString m).toList ++ ": ".toList ++ e

/-- Source first-writer-wins merge (lines 224-226): `for k, v in
parsed.items(): if k not in combined: combined[k] = v`. -/
def mergeInto (combined parsed : QuoteMap) : QuoteMap :=
  parsed.foldl (fun c kv => if dictFind c kv.1 = none then c ++ [kv] else c) combined

/-- One `(date, market)` attempt of the inner loop of `main` (source lines
216-232): fetch, parse with the FULL watchlist, remember the label when the
parse resolved something, merge first-writer-wins, and break on full
coverage; a fault is appended to `errors` and the loop continues. -/
def tryMarket (oracle : FetchOracle) (symbols : List Str) (date : Str) (mid : Int)
    (st : LoopState) (combined : QuoteMap) (got_any : Bool) : StepResult :=
  let st0 := { st with attempts := st.attempts ++ [(date, mid)] }
  match oracle date mid with
  | .error e =>
    ⟨{ st0 with errors := st0.errors ++ [mkErr date mid e] }, combined, got_any, false⟩
  | .ok texts =>
    let parsed := (parse_quotes texts symbols).1
    let as_at := (parse_quotes texts symbols).2
    let st1 := { st0 with calls := st0.calls ++ [⟨date, mid, symbols, combined.map Prod.fst⟩] }
    let got_any2 := if parsed.isEmpty then got_any else true
    let st2 := if parsed.isEmpty then st1
               else if as_at.isEmpty then st1 else { st1 with used_as_at := as_at }
    let combined2 := if parsed.isEmpty then combined else mergeInto combined parsed
    if combined2.length = symbols.length then
      ⟨{ st2 with best_quotes := combined2, used_date := date }, combined2, got_any2, true⟩
    else
      ⟨st2, combined2, got_any2, false⟩

/-- The market loop of `main` for one candidate date (source lines
216-232), with its early break. -/
def marketLoop (oracle : FetchOracle) (symbols : List Str) (date : Str) :
    List Int → LoopState → QuoteMap → Bool → StepResult
  | [], st, combined, got_any => ⟨st, combined, got_any, false⟩
  | mid :: rest, st, combined, got_any =>
    let r := tryMarket oracle symbols date mid st combined got_any
    if r.brk then r
    else marketLoop oracle symbols date rest r.st r.combined r.got_any

/-- The date loop of `main` (source lines 212-239): run the market loop,
stop when `best_quotes` was set by a full-coverage break, otherwise adopt a
non-empty partial per-date mapping and stop, otherwise try the next
(older) date. -/
def dateLoop (oracle : FetchOracle) (symbols : List Str) (mids : List Int) :
    List Str → LoopState → LoopState
  | [], st => st
  | date :: rest, st =>
    let r := marketLoop oracle symbols date mids st [] false
    if !r.st.best_quotes.isEmpty then r.st
    else if r.got_any && !r.combined.isEmpty then
      { r.st with best_quotes := r.combined, used_date := date }
    else dateLoop oracle symbols mids rest r.st

/-- One output record (source lines 244-249). -/
structure Row where
  symbol : Str
  last_price : Option ℚ
  as_at : Str
  source : Str
deriving Repr, DecidableEq, Inhabited

/-- Output assembly of `main` (source lines 241-249): one row per
watchlist symbol, price from the resolved quote when present, `as_at`
falling back to the last-known label then to the tried date, fixed source
tag. -/
def buildRows (symbols : List Str) (best_quotes : QuoteMap)
    (used_as_at used_date : Str) : List Row :=
  symbols.map fun sym =>
    match dictFind best_quotes sym with
    | some q =>
      { symbol := sym
        last_price := q.last_price
        as_at := if !q.as_at.isEmpty then q.as_at
                 else if !used_as_at.isEmpty then used_as_at else used_date
        source := sourceTag }
    | none =>
      { symbol := sym
        last_price := none
        as_at := if !used_as_at.isEmpty then used_as_at else used_date
        source := sourceTag }

/-- Source `main` (line 186) after configuration: exit code 2 and no
retrieval when the watchlist is empty; otherwise run the date loop and
always assemble one row per symbol, exit code 0. -/
def mainRun (oracle : FetchOracle) (symbols : List Str) (mids : List Int)
    (dates : List Str) : Nat × List Row × LoopState :=
  if symbols.isEmpty then (2, [], initState)
  else
    let st := dateLoop oracle symbols mids dates initState
    (0, buildRows symbols st.best_quotes st.used_as_at st.used_date, st)

/-- Whether the character just before position `i` of `t` is a word
character, where `pw` says it for position 0. -/
def prevWordAtFrom (pw : Bool) (t : Str) : Nat → Bool
  | 0 => pw
  | j + 1 =>
    match t.get? j with
    | some c => isWordChar c
    | none => false

/-- The `MONTH_DATE_RE` match length anchored at position `i` of `t`. -/
def matchLenAt (t : Str) (i : Nat) : Option Nat :=
  matchLen (prevWordAtFrom false t i) (t.drop i)

/-- Scenario oracle: market 1 serves a sheet resolving only A, market 2 a
sheet resolving A (differently) and B. -/
def c1Oracle : FetchOracle := fun _ m =>
  if m = 1 then .ok ["A 1.0".toList] else .ok ["A 2.0\nB 3.0".toList]

/-- Scenario oracle: every fetch succeeds with a sheet that carries a date
label but no resolvable quote line. -/
def c6Oracle : FetchOracle := fun _ _ =>
  .ok ["March 4, 2024\nNotes only".toList]

/-- Scenario oracle: date D0 always fails, date D1 resolves only A on
market 1, every other date resolves A and B. -/
def c3Oracle : FetchOracle := fun d m =>
  if d = "D0".toList then .error "HTTP 404".toList
  else if d = "D1".toList then
    (if m = 1 then .ok ["A 1.25 1.50".toList] else .error "x".toList)
  else .ok ["A 9 9\nB 9 9".toList]

/-- Scenario oracle: every fetch raises. -/
def c8Oracle : FetchOracle := fun _ _ => .error "boom".toList

/-- Watchlist used by the two-market scenario. -/
def c1Syms : List Str := ["A".toList, "B".toList]

/-- Loop state after the two-market scenario: one date, markets 1 then 2. -/
def c1State : LoopState := dateLoop c1Oracle c1Syms [1, 2] ["D1".toList] initState

/-- Loop state after the label-only scenario: one date, one market. -/
def c6State : LoopState := dateLoop c6Oracle ["A".toList] [1] ["D1".toList] initState

/-- Watchlist used by the stop-at-first-hit scenario. -/
def c3Syms : List Str := ["A".toList, "B".toList]

/-- A resolved quote used to exercise first-writer-wins. -/
def c4Quote : Quote := ⟨"A".toList, some 1, [], sourceTag⟩

/-! ## Basic lemmas about the dictionary model -/

theorem dictFind_append (m m2 : QuoteMap) (k : Str) :
    dictFind (m ++ m2) k = match dictFind m k with
      | some v => some v
      | none => dictFind m2 k := by
  induction m with
  | nil => simp [dictFind]
  | cons kv rest ih =>
    obtain ⟨k2, v⟩ := kv
    by_cases h : k2 = k <;> simp [dictFind, h, ih]

theorem dictFind_append_of_some {m : QuoteMap} {k : Str} {q : Quote}
    (h : dictFind m k = some q) (m2 : QuoteMap) :
    dictFind (m ++ m2) k = some q := by
  rw [dictFind_append, h]

theorem dictFind_append_singleton_self {m : QuoteMap} {k : Str} {q : Quote}
    (h : dictFind m k = none) : dictFind (m ++ [(k, q)]) k = some q := by
  rw [dictFind_append, h]
  simp [dictFind]

/-- Once a symbol is bound in the running mapping of a parse pass, no later
line rebinds it (first writer wins, parser level). -/
theorem parseLines_preserved {want : List Str} {as_at : Str} {k : Str} {q : Quote} :
    ∀ {lines : List Str} {out : QuoteMap}, dictFind out k = some q →
      dictFind (parseLines want as_at lines out) k = some q := by
  intro lines
  induction lines with
  | nil => intro out h; simpa [parseLines] using h
  | cons line rest ih =>
    intro out h
    rw [parseLines]
    split
    · exact ih h
    · dsimp only
      split
      · exact ih h
      · split
        · exact ih h
        · next sym0 idx0 heq =>
          split
          · exact dictFind_append_of_some h _
          · exact ih (dictFind_append_of_some h _)

/-- Once a symbol is bound in the per-date combined mapping, the merge of a
later market never rebinds it (first writer wins, orchestrator level). -/
theorem mergeInto_preserved {k : Str} {q : Quote} :
    ∀ {parsed combined : QuoteMap}, dictFind combined k = some q →
      dictFind (mergeInto combined parsed) k = some q := by
  intro parsed
  induction parsed with
  | nil => intro combined h; simpa [mergeInto] using h
  | cons kv rest ih =>
    intro combined h
    rw [mergeInto, List.foldl_cons]
    show dictFind (mergeInto _ rest) k = some q
    split
    · exact ih (dictFind_append_of_some h _)
    · exact ih h

/-- The merge only appends, so an empty merged mapping means both inputs
were empty. -/
theorem mergeInto_eq_nil :
    ∀ {parsed combined : QuoteMap}, mergeInto combined parsed = [] →
      combined = [] ∧ parsed = [] := by
  intro parsed
  induction parsed with
  | nil => intro combined h; simpa [mergeInto] using h
  | cons kv rest ih =>
    intro combined h
    rw [mergeInto, List.foldl_cons] at h
    have h' := ih h
    split at h'
    · rcases h' with ⟨h1, _⟩
      exact absurd h1 (by simp)
    · next hne =>
      rcases h' with ⟨h1, _⟩
      subst h1
      simp [dictFind] at hne

/-! ## Tokenizer and anchor lemmas -/

/-- A token is a candidate anchor when its normalization is wanted and not
yet resolved in the running mapping. -/
abbrev wantedUnresolved (want : List Str) (out : QuoteMap) (t : Str) : Prop :=
  norm_sym t ∈ want ∧ dictFind out (norm_sym t) = none

theorem splitWsAux_tokens :
    ∀ (s cur : Str), (∀ c ∈ cur, isSpaceChar c = false) →
      ∀ t ∈ splitWsAux cur s, t ≠ [] ∧ ∀ c ∈ t, isSpaceChar c = false := by
  intro s
  induction s with
  | nil =>
    intro cur hcur t ht
    rw [splitWsAux] at ht
    split at ht
    · simp at ht
    · next hne =>
      simp only [List.mem_singleton] at ht
      subst ht
      refine ⟨by simpa using fun h => hne (by simp [h, List.isEmpty_iff]), ?_⟩
      intro c hc
      exact hcur c (List.mem_reverse.mp hc)
  | cons c rest ih =>
    intro cur hcur t ht
    rw [splitWsAux] at ht
    split at ht
    · next hsp =>
      split at ht
      · exact ih [] (by simp) t ht
      · next hne =>
        rcases List.mem_cons.mp ht with h | h
        · subst h
          refine ⟨by simpa using fun h => hne (by simp [h, List.isEmpty_iff]), ?_⟩
          intro d hd
          exact hcur d (List.mem_reverse.mp hd)
        · exact ih [] (by simp) t h
    · next hsp =>
      refine ih (c :: cur) ?_ t ht
      intro d hd
      rcases List.mem_cons.mp hd with h | h
      · subst h; simpa using hsp
      · exact hcur d h

/-- Every token produced by the tokenizer is non-empty and free of
whitespace. -/
theorem splitWs_tokens {s t : Str} (ht : t ∈ splitWs s) :
    t ≠ [] ∧ ∀ c ∈ t, isSpaceChar c = false :=
  splitWsAux_tokens s [] (by simp) t ht

/-- Full behaviour of the position-1-onward anchor scan: either no token
qualifies and the scan fails, or it returns the first qualifying token with
its offset position. -/
theorem findLaterAnchor_spec (want : List Str) (out : QuoteMap) :
    ∀ (toks : List Str) (i0 : Nat),
      (findLaterAnchor want out toks i0 = none ∧
        ∀ t ∈ toks, ¬wantedUnresolved want out t) ∨
      (∃ j t, toks.get? j = some t ∧ wantedUnresolved want out t ∧
        findLaterAnchor want out toks i0 = some (norm_sym t, i0 + j) ∧
        ∀ j2 < j, ∀ u, toks.get? j2 = some u → ¬wantedUnresolved want out u) := by
  intro toks
  induction toks with
  | nil => intro i0; left; simp [findLaterAnchor]
  | cons t rest ih =>
    intro i0
    by_cases h : wantedUnresolved want out t
    · right
      refine ⟨0, t, by simp, h, ?_, ?_⟩
      · simp only [findLaterAnchor]
        rw [if_pos h, Nat.add_zero]
      · intro j2 hj2 u hu
        exact absurd hj2 (Nat.not_lt_zero j2)
    · rcases ih (i0 + 1) with ⟨hn, hall⟩ | ⟨j, u, hget, hok, heq, hmin⟩
      · left
        refine ⟨?_, ?_⟩
        · simp only [findLaterAnchor]
          rw [if_neg h]
          exact hn
        · intro t2 ht2
          rcases List.mem_cons.mp ht2 with h2 | h2
          · subst h2; exact h
          · exact hall t2 h2
      · right
        refine ⟨j + 1, u, by simpa using hget, hok, ?_, ?_⟩
        · simp only [findLaterAnchor]
          rw [if_neg h, heq]
          congr 2
          omega
        · intro j2 hj2 u2 hget2
          match j2, hget2 with
          | 0, hget2 =>
            simp only [List.get?_cons_zero, Option.some.injEq] at hget2
            subst hget2; exact h
          | k + 1, hget2 =>
            simp only [List.get?_cons_succ] at hget2
            exact hmin k (by omega) u2 hget2

/-- When the first token qualifies, it is the anchor, at position 0. -/
theorem findAnchor_first {want : List Str} {out : QuoteMap} {t0 : Str}
    (rest : List Str) (h : wantedUnresolved want out t0) :
    findAnchor want out (t0 :: rest) = some (norm_sym t0, 0) := by
  simp only [findAnchor]
  rw [if_pos h]

/-- The anchor scan fails exactly when no token of the line qualifies. -/
theorem findAnchor_none_iff {want : List Str} {out : QuoteMap} {toks : List Str} :
    findAnchor want out toks = none ↔
      ∀ t ∈ toks, ¬wantedUnresolved want out t := by
  cases toks with
  | nil => simp [findAnchor]
  | cons t0 rest =>
    by_cases h : wantedUnresolved want out t0
    · rw [findAnchor_first rest h]
      constructor
      · intro hc; cases hc
      · intro hall; exact absurd h (hall t0 (by simp))
    · simp only [findAnchor]
      rw [if_neg h]
      rcases findLaterAnchor_spec want out rest 1 with ⟨hn, hall⟩ | ⟨j, u, hget, hok, heq, _⟩
      · constructor
        · intro _ t ht
          rcases List.mem_cons.mp ht with h2 | h2
          · subst h2; exact h
          · exact hall t h2
        · intro _; exact hn
      · rw [heq]
        constructor
        · intro hc; cases hc
        · intro hall
          exact absurd hok (hall u (List.mem_cons_of_mem t0 (List.get?_mem hget)))

/-- A successful anchor scan returns the normalization of the token at the
reported position; that normalization is wanted and unresolved; and every
earlier candidate position failed to qualify (first token first, then
positions 1 onward in order). -/
theorem findAnchor_some_spec {want : List Str} {out : QuoteMap} {toks : List Str}
    {sym : Str} {i : Nat} (h : findAnchor want out toks = some (sym, i)) :
    ∃ t, toks.get? i = some t ∧ sym = norm_sym t ∧ sym ∈ want ∧
      dictFind out sym = none ∧
      (i = 0 ∨ (1 ≤ i ∧
        (∀ u, toks.get? 0 = some u → ¬wantedUnresolved want out u) ∧
        (∀ j, 1 ≤ j → j < i → ∀ u, toks.get? j = some u →
          ¬wantedUnresolved want out u))) := by
  cases toks with
  | nil => simp [findAnchor] at h
  | cons t0 rest =>
    by_cases h0 : wantedUnresolved want out t0
    · rw [findAnchor_first rest h0] at h
      simp only [Option.some.injEq, Prod.mk.injEq] at h
      obtain ⟨h1, h2⟩ := h
      subst h1; subst h2
      exact ⟨t0, by simp, rfl, h0.1, h0.2, Or.inl rfl⟩
    · simp only [findAnchor] at h
      rw [if_neg h0] at h
      rcases findLaterAnchor_spec want out rest 1 with ⟨hn, _⟩ | ⟨j, u, hget, hok, heq, hmin⟩
      · rw [hn] at h; cases h
      · rw [heq] at h
        simp only [Option.some.injEq, Prod.mk.injEq] at h
        obtain ⟨h1, h2⟩ := h
        subst h1; subst h2
        refine ⟨u, ?_, rfl, hok.1, hok.2, Or.inr ⟨by omega, ?_, ?_⟩⟩
        · have : 1 + j = j + 1 := by omega
          rw [this]
          simpa using hget
        · intro u2 hget2
          simp only [List.get?_cons_zero, Option.some.injEq] at hget2
          subst hget2; exact h0
        · intro j2 h1 h2 u2 hget2
          match j2, h1, h2, hget2 with
          | k + 1, _, h2, hget2 =>
            simp only [List.get?_cons_succ] at hget2
            exact hmin k (by omega) u2 hget2

/-! ## Structure of the line scan -/

/-- A line without a qualifying anchor yields no quote: the scan continues
unchanged on the remaining lines. -/
theorem parseLines_skip {want : List Str} {aa line : Str} {rest : List Str}
    {out : QuoteMap} (h : findAnchor want out (splitWs (pyStrip line)) = none) :
    parseLines want aa (line :: rest) out = parseLines want aa rest out := by
  rw [parseLines]
  split
  · rfl
  · dsimp only
    split
    · rfl
    · simp only [h]

/-- A line whose anchor scan succeeds records, for the anchor symbol, a
quote carrying the positional price of the line remainder, the document
label, and the fixed source tag; no later line changes it. -/
theorem parseLines_record {want : List Str} {aa line : Str} {rest : List Str}
    {out : QuoteMap} {sym0 : Str} {idx0 : Nat}
    (hanchor : findAnchor want out (splitWs (pyStrip line)) = some (sym0, idx0)) :
    dictFind (parseLines want aa (line :: rest) out) sym0 =
      some ⟨sym0, linePrice (splitWs (pyStrip line)) idx0, aa, sourceTag⟩ := by
  obtain ⟨t, _, _, _, hnone, _⟩ := findAnchor_some_spec hanchor
  have hne : splitWs (pyStrip line) ≠ [] := by
    intro he
    rw [he] at hanchor
    simp [findAnchor] at hanchor
  have hstrip : ¬((pyStrip line).isEmpty = true) := by
    intro he
    rw [List.isEmpty_iff] at he
    rw [he] at hne
    exact hne rfl
  rw [parseLines, if_neg hstrip]
  dsimp only
  rw [if_neg (by simpa [List.isEmpty_iff] using hne)]
  simp only [hanchor]
  split
  · exact dictFind_append_singleton_self hnone
  · exact parseLines_preserved (dictFind_append_singleton_self hnone)

/-- Every binding produced by the line scan that was not already in the
running mapping is keyed by the normalization of some non-empty
whitespace-free token, is a wanted symbol, and carries the document label
and fixed source tag. -/
theorem parseLines_new_keys {want : List Str} {aa : Str} :
    ∀ {lines : List Str} {out : QuoteMap} {k : Str} {q : Quote},
      dictFind (parseLines want aa lines out) k = some q →
      dictFind out k = some q ∨
        (q.symbol = k ∧ q.as_at = aa ∧ q.source = sourceTag ∧
          ∃ t, t ≠ [] ∧ (∀ c ∈ t, isSpaceChar c = false) ∧
            k = norm_sym t ∧ k ∈ want) := by
  intro lines
  induction lines with
  | nil =>
    intro out k q h
    rw [parseLines] at h
    exact Or.inl h
  | cons line rest ih =>
    intro out k q h
    rw [parseLines] at h
    split at h
    · exact ih h
    · dsimp only at h
      split at h
      · exact ih h
      · next htoks =>
        split at h
        · exact ih h
        · next sym0 idx0 hanchor =>
          obtain ⟨t, hget, hsym, hwant, hnone, _⟩ := findAnchor_some_spec hanchor
          have htmem : t ∈ splitWs (pyStrip line) := List.get?_mem hget
          obtain ⟨htne, htns⟩ := splitWs_tokens htmem
          have hout2 : ∀ {q2 : Quote},
              dictFind (out ++ [(sym0,
                { symbol := sym0, last_price := linePrice (splitWs (pyStrip line)) idx0,
                  as_at := aa, source := sourceTag })]) k = some q2 →
              dictFind out k = some q2 ∨
                (q2.symbol = k ∧ q2.as_at = aa ∧ q2.source = sourceTag ∧
                  ∃ t2, t2 ≠ [] ∧ (∀ c ∈ t2, isSpaceChar c = false) ∧
                    k = norm_sym t2 ∧ k ∈ want) := by
            intro q2 h2
            rw [dictFind_append] at h2
            split at h2
            · next v hv => exact Or.inl (hv.trans h2)
            · right
              simp only [dictFind] at h2
              split at h2
              · next hk =>
                subst hk
                injection h2 with h2
                subst h2
                exact ⟨rfl, rfl, rfl, t, htne, htns, hsym, hwant⟩
              · cases h2
          split at h
          · exact hout2 h
          · rcases ih h with h3 | h3
            · exact hout2 h3
            · exact Or.inr h3

/-! ## Shape of normalized symbols -/

theorem dropWhile_head_not {p : Char → Bool} :
    ∀ {l : Str} {c : Char} {r : Str}, l.dropWhile p = c :: r → p c = false := by
  intro l
  induction l with
  | nil => intro c r h; cases h
  | cons d ds ih =>
    intro c r h
    rw [List.dropWhile_cons] at h
    split at h
    · exact ih h
    · next hp =>
      injection h with h1 _
      subst h1
      simpa using hp

/-- The result of `rstrip(".,;")` never ends in one of the stripped
characters. -/
theorem rstripPunct_getLast {s : Str} {c : Char}
    (h : (rstripPunct s).getLast? = some c) : isPunctChar c = false := by
  rw [rstripPunct, List.getLast?_reverse] at h
  rw [List.head?_eq_some_iff] at h
  obtain ⟨r, hr⟩ := h
  exact dropWhile_head_not hr

theorem mem_rstripPunct {c : Char} {s : Str} (h : c ∈ rstripPunct s) : c ∈ s := by
  rw [rstripPunct, List.mem_reverse] at h
  exact List.mem_reverse.mp ((List.dropWhile_sublist _).subset h)

theorem mem_pyStrip {c : Char} {s : Str} (h : c ∈ pyStrip s) : c ∈ s := by
  rw [pyStrip, List.mem_reverse] at h
  have h2 := (List.dropWhile_sublist _).subset h
  rw [List.mem_reverse] at h2
  exact (List.dropWhile_sublist _).subset h2

/-- Uppercasing never turns a non-whitespace character into whitespace. -/
theorem toUpper_not_space {c : Char} (h : isSpaceChar c = false) :
    isSpaceChar (Char.toUpper c) = false := by
  simp only [Char.toUpper]
  split
  · next hc =>
    obtain ⟨h1, h2⟩ := hc
    generalize Char.toNat c = n at h1 h2
    interval_cases n <;> decide
  · exact h

/-- A normalized symbol of a whitespace-free token is whitespace-free and
does not end in one of the stripped punctuation characters. -/
theorem norm_sym_shape {t : Str} (hns : ∀ c ∈ t, isSpaceChar c = false) :
    (∀ c ∈ norm_sym t, isSpaceChar c = false) ∧
      (∀ c, (norm_sym t).getLast? = some c → isPunctChar c = false) := by
  constructor
  · intro c hc
    have h1 : c ∈ (pyStrip t).map Char.toUpper := mem_rstripPunct hc
    rw [List.mem_map] at h1
    obtain ⟨c0, hc0, rfl⟩ := h1
    exact toUpper_not_space (hns c0 (mem_pyStrip hc0))
  · intro c hc
    exact rstripPunct_getLast hc

/-! ## Watchlist reading -/

theorem mem_insertSorted {x y : Str} : ∀ {l : List Str},
    x ∈ insertSorted y l ↔ x = y ∨ x ∈ l := by
  intro l
  induction l with
  | nil => simp [insertSorted]
  | cons z zs ih =>
    rw [insertSorted]
    split
    · simp [or_comm, or_assoc, or_left_comm]
    · simp only [List.mem_cons, ih]
      tauto

theorem mem_sortStr {x : Str} : ∀ {l : List Str}, x ∈ sortStr l ↔ x ∈ l := by
  intro l
  induction l with
  | nil => simp [sortStr]
  | cons y ys ih =>
    show x ∈ insertSorted y (sortStr ys) ↔ _
    rw [mem_insertSorted]
    simp [ih]

theorem mem_dedupStr {x : Str} : ∀ {l seen : List Str},
    x ∈ dedupStr seen l ↔ x ∈ l ∧ x ∉ seen := by
  intro l
  induction l with
  | nil => simp [dedupStr]
  | cons y ys ih =>
    intro seen
    rw [dedupStr]
    split
    · next hy =>
      rw [ih]
      constructor
      · rintro ⟨h1, h2⟩; exact ⟨List.mem_cons_of_mem y h1, h2⟩
      · rintro ⟨h1, h2⟩
        rcases List.mem_cons.mp h1 with rfl | h1
        · exact absurd hy h2
        · exact ⟨h1, h2⟩
    · next hy =>
      by_cases hxy : x = y
      · subst hxy
        simp [hy]
      · simp only [List.mem_cons, hxy, false_or]
        rw [ih]
        simp only [List.mem_cons, hxy, false_or]

/-- Membership in the watchlist: exactly the stripped, uppercased,
non-blank, non-comment lines — with no punctuation stripping. -/
theorem mem_read_watchlist {lines : List Str} {sym : Str} :
    sym ∈ read_watchlist lines ↔
      ∃ l ∈ lines, pyStrip l ≠ [] ∧ (pyStrip l).head? ≠ some '#' ∧
        sym = (pyStrip l).map Char.toUpper := by
  rw [read_watchlist, mem_sortStr, mem_dedupStr]
  simp only [List.mem_filterMap, List.mem_map, List.not_mem_nil, not_false_iff, and_true]
  constructor
  · rintro ⟨s, ⟨l, hl, rfl⟩, hs⟩
    split at hs
    · cases hs
    · next hcond =>
      rw [Bool.or_eq_true] at hcond
      push_neg at hcond
      obtain ⟨h1, h2⟩ := hcond
      injection hs with hs
      refine ⟨l, hl, ?_, ?_, hs.symm⟩
      · intro he
        exact h1 (by rw [he]; rfl)
      · intro he
        exact h2 (decide_eq_true he)
  · rintro ⟨l, hl, h1, h2, rfl⟩
    refine ⟨pyStrip l, ⟨l, hl, rfl⟩, ?_⟩
    have hcond : ¬(((pyStrip l).isEmpty ||
        decide ((pyStrip l).head? = some '#')) = true) := by
      rw [Bool.or_eq_true]
      push_neg
      exact ⟨fun he => h1 (List.isEmpty_iff.mp he),
        fun he => h2 (of_decide_eq_true he)⟩
    rw [if_neg hcond]

/-! ## Numeric token conversion -/

theorem takeWhile_all {p : Char → Bool} :
    ∀ {l : Str}, (∀ x ∈ l, p x = true) → l.takeWhile p = l := by
  intro l
  induction l with
  | nil => intro _; rfl
  | cons c cs ih =>
    intro h
    rw [List.takeWhile_cons, if_pos (h c (by simp))]
    rw [ih (fun x hx => h x (List.mem_cons_of_mem c hx))]

theorem dropWhile_all {p : Char → Bool} :
    ∀ {l : Str}, (∀ x ∈ l, p x = true) → l.dropWhile p = [] := by
  intro l
  induction l with
  | nil => intro _; rfl
  | cons c cs ih =>
    intro h
    rw [List.dropWhile_cons, if_pos (h c (by simp))]
    exact ih (fun x hx => h x (List.mem_cons_of_mem c hx))

theorem takeWhile_append_all {p : Char → Bool} {l1 l2 : Str}
    (h : ∀ x ∈ l1, p x = true) :
    (l1 ++ l2).takeWhile p = l1 ++ l2.takeWhile p := by
  induction l1 with
  | nil => rfl
  | cons c cs ih =>
    rw [List.cons_append, List.takeWhile_cons, if_pos (h c (by simp))]
    rw [ih (fun x hx => h x (List.mem_cons_of_mem c hx))]
    rfl

theorem dropWhile_append_all {p : Char → Bool} {l1 l2 : Str}
    (h : ∀ x ∈ l1, p x = true) :
    (l1 ++ l2).dropWhile p = l2.dropWhile p := by
  induction l1 with
  | nil => rfl
  | cons c cs ih =>
    rw [List.cons_append, List.dropWhile_cons, if_pos (h c (by simp))]
    exact ih (fun x hx => h x (List.mem_cons_of_mem c hx))

theorem drop_takeWhile_length {p : Char → Bool} :
    ∀ (l : Str), l.drop (l.takeWhile p).length = l.dropWhile p := by
  intro l
  induction l with
  | nil => rfl
  | cons c cs ih =>
    rw [List.takeWhile_cons, List.dropWhile_cons]
    split
    · simpa using ih
    · rfl

theorem mem_takeWhile_bool {p : Char → Bool} :
    ∀ {l : Str} {x : Char}, x ∈ l.takeWhile p → p x = true := by
  intro l
  induction l with
  | nil => intro x hx; cases hx
  | cons c cs ih =>
    intro x hx
    rw [List.takeWhile_cons] at hx
    split at hx
    · next hp =>
      rcases List.mem_cons.mp hx with rfl | hx
      · exact hp
      · exact ih hx
    · cases hx

theorem filter_ne_comma_cons {c : Char} {r : Str} (h : c ≠ ',') :
    List.filter (fun x => decide (x ≠ ',')) (c :: r) =
      c :: List.filter (fun x => decide (x ≠ ',')) r := by
  rw [List.filter_cons]
  simp [h]

theorem digit_not_sign {c : Char} (h : c.isDigit = true) :
    c ≠ '+' ∧ c ≠ '-' ∧ c ≠ ',' ∧ c ≠ '.' := by
  refine ⟨?_, ?_, ?_, ?_⟩ <;> { rintro rfl; exact absurd h (by decide) }

theorem splitSign_other {c : Char} {r : Str} (h1 : c ≠ '+') (h2 : c ≠ '-') :
    splitSign (c :: r) = (1, c :: r) := by
  rw [splitSign, if_neg h1, if_neg h2]

/-- Rewriting of `parseBody` that exposes the integer/fraction split via
`dropWhile`. -/
theorem parseBody_eq (sgn : Int) (s1 : Str) : parseBody sgn s1 =
    match s1.dropWhile Char.isDigit with
    | [] => if (s1.takeWhile Char.isDigit).isEmpty then none
            else some (mkRat (sgn * digitsToNat (s1.takeWhile Char.isDigit)) 1)
    | '.' :: fpart =>
      if fpart.all Char.isDigit &&
          (!(s1.takeWhile Char.isDigit).isEmpty || !fpart.isEmpty) then
        some (mkRat (sgn * (digitsToNat (s1.takeWhile Char.isDigit) *
          10 ^ fpart.length + digitsToNat fpart)) (10 ^ fpart.length))
      else none
    | _ => none := by
  simp only [parseBody]
  rw [drop_takeWhile_length]

/-- The sign-free body of every `NUM_RE` match converts to a rational:
Python `float` cannot fail on a collected numeric token. -/
theorem numBody_parseBody {s : Str} (h : numBody s = true) (sgn : Int) :
    ∃ q, parseBody sgn (s.filter (fun c => c ≠ ',')) = some q := by
  cases s with
  | nil => cases h
  | cons c r =>
    rw [numBody] at h
    split at h
    · next hc =>
      have hfc : c ≠ ',' := (digit_not_sign hc).2.2.1
      have hsplit : r.takeWhile (fun d => d.isDigit || d = ',') ++
          r.dropWhile (fun d => d.isDigit || d = ',') = r :=
        List.takeWhile_append_dropWhile _ _
      have hfilter_p : ∀ x ∈ (r.takeWhile (fun d => d.isDigit || d = ',')).filter
          (fun c => c ≠ ','), x.isDigit = true := by
        intro x hx
        rw [List.mem_filter] at hx
        obtain ⟨hx1, hx2⟩ := hx
        rcases Bool.or_eq_true _ _ |>.mp (mem_takeWhile_bool hx1) with hd | hcomma
        · exact hd
        · rw [decide_eq_true_eq] at hx2
          exact absurd (by simpa using hcomma) hx2
      split at h
      · next hdrop =>
        -- no fractional part: everything surviving the comma filter is digits
        have hr : r.filter (fun c => c ≠ ',') =
            (r.takeWhile (fun d => d.isDigit || d = ',')).filter (fun c => c ≠ ',') := by
          conv_lhs => rw [← hsplit]
          rw [List.filter_append, hdrop]
          simp
        have hall : ∀ x ∈ c :: r.filter (fun c => c ≠ ','), x.isDigit = true := by
          intro x hx
          rcases List.mem_cons.mp hx with rfl | hx
          · exact hc
          · rw [hr] at hx
            exact hfilter_p x hx
        rw [filter_ne_comma_cons hfc, parseBody_eq, dropWhile_all hall,
          takeWhile_all hall]
        exact ⟨_, rfl⟩
      · next rr hdrop =>
        -- fractional part: dot then digits
        have hrr : rr.all Char.isDigit = true := h
        have hfrr : rr.filter (fun c => c ≠ ',') = rr := by
          rw [List.filter_eq_self]
          intro a ha
          simpa using ((digit_not_sign (by
            rw [List.all_eq_true] at hrr
            exact hrr a ha)).2.2.1)
        have hr : r.filter (fun c => c ≠ ',') =
            ((r.takeWhile (fun d => d.isDigit || d = ',')).filter
              (fun c => c ≠ ',')) ++ '.' :: rr := by
          conv_lhs => rw [← hsplit]
          rw [List.filter_append, hdrop, filter_ne_comma_cons (by decide), hfrr]
        have htw : (c :: ((r.takeWhile (fun d => d.isDigit || d = ',')).filter
            (fun c => c ≠ ',') ++ '.' :: rr)).takeWhile Char.isDigit =
            c :: (r.takeWhile (fun d => d.isDigit || d = ',')).filter
              (fun c => c ≠ ',') := by
          rw [List.takeWhile_cons, if_pos hc, takeWhile_append_all hfilter_p]
          rw [List.takeWhile_cons, if_neg (by decide)]
          simp
        have hdw : (c :: ((r.takeWhile (fun d => d.isDigit || d = ',')).filter
            (fun c => c ≠ ',') ++ '.' :: rr)).dropWhile Char.isDigit = '.' :: rr := by
          rw [List.dropWhile_cons, if_pos hc, dropWhile_append_all hfilter_p]
          rw [List.dropWhile_cons, if_neg (by decide)]
        rw [filter_ne_comma_cons hfc, parseBody_eq, hr]
        simp only [hdw, htw]
        rw [hrr]
        exact ⟨_, rfl⟩
      · cases h
    · cases h

/-- Every token matched by `NUM_RE` converts: the `ValueError` branch of
the source helper `f` is unreachable for collected tokens. -/
theorem isNumTok_parseDecimal {t : Str} (h : isNumTok t = true) :
    ∃ q, parseDecimal t = some q := by
  cases t with
  | nil => cases h
  | cons c0 r0 =>
    rw [isNumTok] at h
    split at h
    · next hs =>
      rcases Bool.or_eq_true _ _ |>.mp hs with hp | hm
      · rw [decide_eq_true_eq] at hp
        subst hp
        obtain ⟨q, hq⟩ := numBody_parseBody h (1 : Int)
        refine ⟨q, ?_⟩
        simp only [parseDecimal]
        rw [filter_ne_comma_cons (by decide)]
        exact hq
      · rw [decide_eq_true_eq] at hm
        subst hm
        obtain ⟨q, hq⟩ := numBody_parseBody h (-1 : Int)
        refine ⟨q, ?_⟩
        simp only [parseDecimal]
        rw [filter_ne_comma_cons (by decide)]
        exact hq
    · next hs =>
      have hns : ¬(c0 = '+' ∨ c0 = '-') := by
        intro hor
        apply hs
        rw [Bool.or_eq_true]
        rcases hor with h1 | h1
        · exact Or.inl (decide_eq_true h1)
        · exact Or.inr (decide_eq_true h1)
      push_neg at hns
      have hc0 : c0.isDigit = true := by
        rw [numBody] at h
        split at h
        · next hd => exact hd
        · cases h
      obtain ⟨q, hq⟩ := numBody_parseBody h (1 : Int)
      refine ⟨q, ?_⟩
      simp only [parseDecimal]
      have hfc : (c0 :: r0).filter (fun c => c ≠ ',') =
          c0 :: r0.filter (fun c => c ≠ ',') :=
        filter_ne_comma_cons (digit_not_sign hc0).2.2.1
      rw [hfc, splitSign_other hns.1 hns.2]
      rw [hfc] at hq
      exact hq

/-! ## Projection equations for one market attempt -/

theorem tryMarket_combined_eq (o : FetchOracle) (s : List Str) (d : Str) (m : Int)
    (st : LoopState) (c : QuoteMap) (g : Bool) :
    (tryMarket o s d m st c g).combined =
      match o d m with
      | .error _ => c
      | .ok texts => if (parse_quotes texts s).1.isEmpty then c
                     else mergeInto c (parse_quotes texts s).1 := by
  rw [tryMarket]
  cases o d m with
  | error e => rfl
  | ok texts =>
    dsimp only
    repeat' split
    all_goals first | rfl | simp_all

theorem tryMarket_got_eq (o : FetchOracle) (s : List Str) (d : Str) (m : Int)
    (st : LoopState) (c : QuoteMap) (g : Bool) :
    (tryMarket o s d m st c g).got_any =
      match o d m with
      | .error _ => g
      | .ok texts => if (parse_quotes texts s).1.isEmpty then g else true := by
  rw [tryMarket]
  cases o d m with
  | error e => rfl
  | ok texts =>
    dsimp only
    repeat' split
    all_goals first | rfl | simp_all

theorem tryMarket_brk_eq (o : FetchOracle) (s : List Str) (d : Str) (m : Int)
    (st : LoopState) (c : QuoteMap) (g : Bool) :
    (tryMarket o s d m st c g).brk =
      match o d m with
      | .error _ => false
      | .ok texts => decide
          ((if (parse_quotes texts s).1.isEmpty then c
            else mergeInto c (parse_quotes texts s).1).length = s.length) := by
  rw [tryMarket]
  cases o d m with
  | error e => rfl
  | ok texts =>
    dsimp only
    repeat' split
    all_goals first | rfl | simp_all

theorem tryMarket_attempts_eq (o : FetchOracle) (s : List Str) (d : Str) (m : Int)
    (st : LoopState) (c : QuoteMap) (g : Bool) :
    (tryMarket o s d m st c g).st.attempts = st.attempts ++ [(d, m)] := by
  rw [tryMarket]
  cases o d m with
  | error e => rfl
  | ok texts =>
    dsimp only
    repeat' split
    all_goals first | rfl | simp_all

theorem tryMarket_errors_eq (o : FetchOracle) (s : List Str) (d : Str) (m : Int)
    (st : LoopState) (c : QuoteMap) (g : Bool) :
    (tryMarket o s d m st c g).st.errors =
      match o d m with
      | .error e => st.errors ++ [mkErr d m e]
      | .ok _ => st.errors := by
  rw [tryMarket]
  cases o d m with
  | error e => rfl
  | ok texts =>
    dsimp only
    repeat' split
    all_goals first | rfl | simp_all

theorem tryMarket_calls_eq (o : FetchOracle) (s : List Str) (d : Str) (m : Int)
    (st : LoopState) (c : QuoteMap) (g : Bool) :
    (tryMarket o s d m st c g).st.calls =
      match o d m with
      | .error _ => st.calls
      | .ok texts => st.calls ++ [⟨d, m, s, c.map Prod.fst⟩] := by
  rw [tryMarket]
  cases o d m with
  | error e => rfl
  | ok texts =>
    dsimp only
    repeat' split
    all_goals first | rfl | simp_all

theorem tryMarket_used_as_at_eq (o : FetchOracle) (s : List Str) (d : Str) (m : Int)
    (st : LoopState) (c : QuoteMap) (g : Bool) :
    (tryMarket o s d m st c g).st.used_as_at =
      match o d m with
      | .error _ => st.used_as_at
      | .ok texts =>
        if (parse_quotes texts s).1.isEmpty then st.used_as_at
        else if (parse_quotes texts s).2.isEmpty then st.used_as_at
        else (parse_quotes texts s).2 := by
  rw [tryMarket]
  cases o d m with
  | error e => rfl
  | ok texts =>
    dsimp only
    repeat' split
    all_goals first | rfl | simp_all

theorem tryMarket_best_eq (o : FetchOracle) (s : List Str) (d : Str) (m : Int)
    (st : LoopState) (c : QuoteMap) (g : Bool) :
    (tryMarket o s d m st c g).st.best_quotes =
      match o d m with
      | .error _ => st.best_quotes
      | .ok texts =>
        if (if (parse_quotes texts s).1.isEmpty then c
            else mergeInto c (parse_quotes texts s).1).length = s.length then
          (if (parse_quotes texts s).1.isEmpty then c
           else mergeInto c (parse_quotes texts s).1)
        else st.best_quotes := by
  rw [tryMarket]
  cases o d m with
  | error e => rfl
  | ok texts =>
    dsimp only
    repeat' split
    all_goals first | rfl | simp_all

theorem tryMarket_used_date_eq (o : FetchOracle) (s : List Str) (d : Str) (m : Int)
    (st : LoopState) (c : QuoteMap) (g : Bool) :
    (tryMarket o s d m st c g).st.used_date =
      match o d m with
      | .error _ => st.used_date
      | .ok texts =>
        if (if (parse_quotes texts s).1.isEmpty then c
            else mergeInto c (parse_quotes texts s).1).length = s.length then d
        else st.used_date := by
  rw [tryMarket]
  cases o d m with
  | error e => rfl
  | ok texts =>
    dsimp only
    repeat' split
    all_goals first | rfl | simp_all

/-! ## Market-loop lemmas -/

theorem tryMarket_combined_find {o : FetchOracle} {s : List Str} {d : Str} {m : Int}
    {st : LoopState} {c : QuoteMap} {g : Bool} {k : Str} {q : Quote}
    (h : dictFind c k = some q) :
    dictFind (tryMarket o s d m st c g).combined k = some q := by
  rw [tryMarket_combined_eq]
  cases o d m with
  | error e => exact h
  | ok texts =>
    dsimp only
    split
    · exact h
    · exact mergeInto_preserved h

theorem marketLoop_combined_find {o : FetchOracle} {s : List Str} {d : Str}
    {k : Str} {q : Quote} :
    ∀ {ms : List Int} {st : LoopState} {c : QuoteMap} {g : Bool},
      dictFind c k = some q →
      dictFind (marketLoop o s d ms st c g).combined k = some q := by
  intro ms
  induction ms with
  | nil => intro st c g h; exact h
  | cons m rest ih =>
    intro st c g h
    rw [marketLoop]
    split
    · exact tryMarket_combined_find h
    · exact ih (tryMarket_combined_find h)

theorem tryMarket_combined_nil {o : FetchOracle} {s : List Str} {d : Str} {m : Int}
    {st : LoopState} {c : QuoteMap} {g : Bool}
    (h : (tryMarket o s d m st c g).combined = []) : c = [] := by
  rw [tryMarket_combined_eq] at h
  rcases ho : o d m with e | texts <;> rw [ho] at h
  · exact h
  · dsimp only at h
    split at h
    · exact h
    · exact (mergeInto_eq_nil h).1

theorem marketLoop_combined_nil {o : FetchOracle} {s : List Str} {d : Str} :
    ∀ {ms : List Int} {st : LoopState} {c : QuoteMap} {g : Bool},
      (marketLoop o s d ms st c g).combined = [] → c = [] := by
  intro ms
  induction ms with
  | nil => intro st c g h; exact h
  | cons m rest ih =>
    intro st c g h
    rw [marketLoop] at h
    split at h
    · exact tryMarket_combined_nil h
    · exact tryMarket_combined_nil (ih h)

/-- When a successful or failed attempt leaves the per-date mapping empty,
the attempt changed none of the adoption-relevant state fields. -/
theorem tryMarket_empty_state {o : FetchOracle} {s : List Str} {d : Str} {m : Int}
    {st : LoopState} {c : QuoteMap} {g : Bool} (hs : s ≠ [])
    (hc : (tryMarket o s d m st c g).combined = []) :
    (tryMarket o s d m st c g).st.best_quotes = st.best_quotes ∧
    (tryMarket o s d m st c g).st.used_date = st.used_date ∧
    (tryMarket o s d m st c g).st.used_as_at = st.used_as_at ∧
    (tryMarket o s d m st c g).combined = c ∧
    (tryMarket o s d m st c g).got_any = g ∧
    (tryMarket o s d m st c g).brk = false := by
  rcases ho : o d m with e | texts
  · refine ⟨?_, ?_, ?_, ?_, ?_, ?_⟩ <;>
      simp [tryMarket_best_eq, tryMarket_used_date_eq, tryMarket_used_as_at_eq,
        tryMarket_combined_eq, tryMarket_got_eq, tryMarket_brk_eq, ho]
  · have hpe : (parse_quotes texts s).1.isEmpty = true := by
      by_contra hne
      rw [tryMarket_combined_eq, ho] at hc
      dsimp only at hc
      rw [if_neg hne] at hc
      obtain ⟨_, h2⟩ := mergeInto_eq_nil hc
      rw [h2] at hne
      exact hne rfl
    have hc0 : c = [] := by
      rw [tryMarket_combined_eq, ho] at hc
      dsimp only at hc
      rw [if_pos hpe] at hc
      exact hc
    have hlen : ¬((if (parse_quotes texts s).1.isEmpty then c
        else mergeInto c (parse_quotes texts s).1).length = s.length) := by
      rw [if_pos hpe, hc0]
      intro hl
      exact hs (List.length_eq_zero.mp hl.symm)
    refine ⟨?_, ?_, ?_, ?_, ?_, ?_⟩
    · rw [tryMarket_best_eq, ho]
      dsimp only
      rw [if_neg hlen]
    · rw [tryMarket_used_date_eq, ho]
      dsimp only
      rw [if_neg hlen]
    · rw [tryMarket_used_as_at_eq, ho]
      dsimp only
      rw [if_pos hpe]
    · rw [tryMarket_combined_eq, ho]
      dsimp only
      rw [if_pos hpe, hc0]
    · rw [tryMarket_got_eq, ho]
      dsimp only
      rw [if_pos hpe]
    · rw [tryMarket_brk_eq, ho]
      dsimp only
      exact decide_eq_false hlen

/-- A market loop that ends with an empty per-date mapping changed none of
the adoption-relevant state fields, resolved nothing, and never broke. -/
theorem marketLoop_empty_state {o : FetchOracle} {s : List Str} {d : Str}
    (hs : s ≠ []) :
    ∀ {ms : List Int} {st : LoopState} {c : QuoteMap} {g : Bool},
      (marketLoop o s d ms st c g).combined = [] →
      (marketLoop o s d ms st c g).st.best_quotes = st.best_quotes ∧
      (marketLoop o s d ms st c g).st.used_date = st.used_date ∧
      (marketLoop o s d ms st c g).st.used_as_at = st.used_as_at ∧
      (marketLoop o s d ms st c g).combined = c ∧
      (marketLoop o s d ms st c g).got_any = g := by
  intro ms
  induction ms with
  | nil => intro st c g _; exact ⟨rfl, rfl, rfl, rfl, rfl⟩
  | cons m rest ih =>
    intro st c g hc
    rw [marketLoop] at hc ⊢
    split at hc
    · next hbrk =>
      have h6 := tryMarket_empty_state hs hc
      rw [h6.2.2.2.2.2] at hbrk
      cases hbrk
    · next hbrk =>
      rw [if_neg hbrk]
      have hnil : (tryMarket o s d m st c g).combined = [] :=
        marketLoop_combined_nil hc
      have h6 := tryMarket_empty_state hs hnil
      have ih6 := ih hc
      refine ⟨?_, ?_, ?_, ?_, ?_⟩
      · rw [ih6.1, h6.1]
      · rw [ih6.2.1, h6.2.1]
      · rw [ih6.2.2.1, h6.2.2.1]
      · rw [ih6.2.2.2.1]
        exact h6.2.2.2.1
      · rw [ih6.2.2.2.2]
        exact h6.2.2.2.2.1

theorem tryMarket_got_inv {o : FetchOracle} {s : List Str} {d : Str} {m : Int}
    {st : LoopState} {c : QuoteMap} {g : Bool} (h : c ≠ [] → g = true)
    (hc : (tryMarket o s d m st c g).combined ≠ []) :
    (tryMarket o s d m st c g).got_any = true := by
  rw [tryMarket_combined_eq] at hc
  rw [tryMarket_got_eq]
  rcases ho : o d m with e | texts
  · rw [ho] at hc
    exact h hc
  · rw [ho] at hc
    simp only [] at hc ⊢
    split at hc
    · next hpe => rw [if_pos hpe]; exact h hc
    · next hpe => rw [if_neg hpe]

/-- Starting from an empty mapping and a cleared flag, a non-empty final
per-date mapping implies the `got_any` flag was raised. -/
theorem marketLoop_got_inv {o : FetchOracle} {s : List Str} {d : Str} :
    ∀ {ms : List Int} {st : LoopState} {c : QuoteMap} {g : Bool},
      (c ≠ [] → g = true) →
      (marketLoop o s d ms st c g).combined ≠ [] →
      (marketLoop o s d ms st c g).got_any = true := by
  intro ms
  induction ms with
  | nil => intro st c g h hc; exact h hc
  | cons m rest ih =>
    intro st c g h hc
    rw [marketLoop] at hc ⊢
    split at hc
    · next hbrk => rw [if_pos hbrk]; exact tryMarket_got_inv h hc
    · next hbrk => rw [if_neg hbrk]; exact ih (fun h2 => tryMarket_got_inv h h2) hc

theorem tryMarket_brk_false_state {o : FetchOracle} {s : List Str} {d : Str}
    {m : Int} {st : LoopState} {c : QuoteMap} {g : Bool}
    (h : (tryMarket o s d m st c g).brk = false) :
    (tryMarket o s d m st c g).st.best_quotes = st.best_quotes ∧
    (tryMarket o s d m st c g).st.used_date = st.used_date := by
  rw [tryMarket_brk_eq] at h
  rcases ho : o d m with e | texts
  · constructor <;> simp [tryMarket_best_eq, tryMarket_used_date_eq, ho]
  · rw [ho] at h
    dsimp only at h
    rw [decide_eq_false_iff_not] at h
    constructor
    · rw [tryMarket_best_eq, ho]
      dsimp only
      rw [if_neg h]
    · rw [tryMarket_used_date_eq, ho]
      dsimp only
      rw [if_neg h]

theorem tryMarket_brk_true_state {o : FetchOracle} {s : List Str} {d : Str}
    {m : Int} {st : LoopState} {c : QuoteMap} {g : Bool}
    (h : (tryMarket o s d m st c g).brk = true) :
    (tryMarket o s d m st c g).st.best_quotes = (tryMarket o s d m st c g).combined ∧
    (tryMarket o s d m st c g).st.used_date = d ∧
    (tryMarket o s d m st c g).combined.length = s.length := by
  rw [tryMarket_brk_eq] at h
  rcases ho : o d m with e | texts
  · rw [ho] at h; cases h
  · rw [ho] at h
    dsimp only at h
    rw [decide_eq_true_eq] at h
    refine ⟨?_, ?_, ?_⟩
    · rw [tryMarket_best_eq, tryMarket_combined_eq, ho]
      dsimp only
      rw [if_pos h]
    · rw [tryMarket_used_date_eq, ho]
      dsimp only
      rw [if_pos h]
    · rw [tryMarket_combined_eq, ho]
      dsimp only
      exact h

/-- After the market loop, either nothing was adopted inside the loop
(`best_quotes` and `used_date` unchanged), or the loop broke on full
coverage and adopted its own combined mapping tagged with its date. -/
theorem marketLoop_states {o : FetchOracle} {s : List Str} {d : Str} :
    ∀ {ms : List Int} {st : LoopState} {c : QuoteMap} {g : Bool},
      ((marketLoop o s d ms st c g).st.best_quotes = st.best_quotes ∧
        (marketLoop o s d ms st c g).st.used_date = st.used_date) ∨
      ((marketLoop o s d ms st c g).st.best_quotes =
          (marketLoop o s d ms st c g).combined ∧
        (marketLoop o s d ms st c g).st.used_date = d ∧
        (marketLoop o s d ms st c g).combined.length = s.length) := by
  intro ms
  induction ms with
  | nil => intro st c g; exact Or.inl ⟨rfl, rfl⟩
  | cons m rest ih =>
    intro st c g
    rw [marketLoop]
    split
    · next hbrk => exact Or.inr (tryMarket_brk_true_state hbrk)
    · next hbrk =>
      have hT := tryMarket_brk_false_state (Bool.not_eq_true _ |>.mp hbrk)
      rcases ih with ⟨h1, h2⟩ | hr
      · exact Or.inl ⟨h1.trans hT.1, h2.trans hT.2⟩
      · exact Or.inr hr

theorem marketLoop_attempts {o : FetchOracle} {s : List Str} {d : Str} :
    ∀ {ms : List Int} {st : LoopState} {c : QuoteMap} {g : Bool}
      {a : Str × Int}, a ∈ (marketLoop o s d ms st c g).st.attempts →
      a ∈ st.attempts ∨ a.1 = d := by
  intro ms
  induction ms with
  | nil => intro st c g a ha; exact Or.inl ha
  | cons m rest ih =>
    intro st c g a ha
    rw [marketLoop] at ha
    split at ha
    · rw [tryMarket_attempts_eq] at ha
      rcases List.mem_append.mp ha with h1 | h1
      · exact Or.inl h1
      · rcases List.mem_singleton.mp h1 with rfl
        exact Or.inr rfl
    · rcases ih ha with h1 | h1
      · rw [tryMarket_attempts_eq] at h1
        rcases List.mem_append.mp h1 with h2 | h2
        · exact Or.inl h2
        · rcases List.mem_singleton.mp h2 with rfl
          exact Or.inr rfl
      · exact Or.inr h1

theorem tryMarket_indep (o : FetchOracle) (s : List Str) (d : Str) (m : Int)
    (st st2 : LoopState) (c : QuoteMap) (g : Bool) :
    (tryMarket o s d m st c g).combined = (tryMarket o s d m st2 c g).combined ∧
    (tryMarket o s d m st c g).got_any = (tryMarket o s d m st2 c g).got_any ∧
    (tryMarket o s d m st c g).brk = (tryMarket o s d m st2 c g).brk := by
  refine ⟨?_, ?_, ?_⟩
  · rw [tryMarket_combined_eq, tryMarket_combined_eq]
  · rw [tryMarket_got_eq, tryMarket_got_eq]
  · rw [tryMarket_brk_eq, tryMarket_brk_eq]

/-- The combined mapping and flags computed by a market loop do not depend
on the accumulated orchestrator state. -/
theorem marketLoop_indep {o : FetchOracle} {s : List Str} {d : Str} :
    ∀ {ms : List Int} {c : QuoteMap} {g : Bool} (st st2 : LoopState),
      (marketLoop o s d ms st c g).combined =
        (marketLoop o s d ms st2 c g).combined ∧
      (marketLoop o s d ms st c g).got_any =
        (marketLoop o s d ms st2 c g).got_any := by
  intro ms
  induction ms with
  | nil => intro c g st st2; exact ⟨rfl, rfl⟩
  | cons m rest ih =>
    intro c g st st2
    rw [marketLoop, marketLoop]
    obtain ⟨hcomb, hgot, hbrk⟩ := tryMarket_indep o s d m st st2 c g
    by_cases hb : (tryMarket o s d m st c g).brk = true
    · rw [if_pos hb, if_pos (hbrk ▸ hb)]
      exact ⟨hcomb, hgot⟩
    · rw [if_neg hb, if_neg (hbrk ▸ hb)]
      rw [hcomb, hgot]
      exact ih _ _

/-! ## Date-loop lemmas -/

/-- When the whole lookback window is exhausted with an empty result, the
fallback label and date fields are exactly as they started, and no date
ever adopted anything. -/
theorem dateLoop_exhausted {o : FetchOracle} {s : List Str} {mids : List Int}
    (hs : s ≠ []) :
    ∀ {dates : List Str} {st : LoopState},
      (dateLoop o s mids dates st).best_quotes = [] →
      (dateLoop o s mids dates st).used_as_at = st.used_as_at ∧
      (dateLoop o s mids dates st).used_date = st.used_date ∧
      st.best_quotes = [] := by
  intro dates
  induction dates with
  | nil => intro st h; exact ⟨rfl, rfl, h⟩
  | cons date rest ih =>
    intro st h
    rw [dateLoop] at h ⊢
    by_cases hb : (!(marketLoop o s date mids st [] false).st.best_quotes.isEmpty) = true
    · rw [if_pos hb] at h ⊢
      rw [h] at hb
      simp at hb
    · rw [if_neg hb] at h ⊢
      by_cases hg : ((marketLoop o s date mids st [] false).got_any &&
          !(marketLoop o s date mids st [] false).combined.isEmpty) = true
      · rw [if_pos hg] at h ⊢
        simp only at h
        rw [h] at hg
        simp at hg
      · rw [if_neg hg] at h ⊢
        obtain ⟨ha, hd, hbq⟩ := ih h
        have hcomb : (marketLoop o s date mids st [] false).combined = [] := by
          by_contra hne
          have hgot : (marketLoop o s date mids st [] false).got_any = true :=
            marketLoop_got_inv (fun hx => absurd rfl hx) hne
          apply hg
          rw [hgot, Bool.true_and]
          cases hemp : (marketLoop o s date mids st [] false).combined.isEmpty
          · rfl
          · rw [List.isEmpty_iff] at hemp
            exact absurd hemp hne
        have h5 := marketLoop_empty_state hs hcomb
        exact ⟨ha.trans h5.2.2.1, hd.trans h5.2.1, h5.1.symm.trans hbq⟩

/-- The date loop stops at the first date whose market loop yields a
non-empty combined mapping: that mapping is adopted, tagged with that date,
and no later (older) date is ever attempted. -/
theorem dateLoop_first_hit {o : FetchOracle} {s : List Str} {mids : List Int}
    (hs : s ≠ []) :
    ∀ {ds1 : List Str} {d : Str} {ds2 : List Str} {st : LoopState},
      st.best_quotes = [] →
      (∀ d1 ∈ ds1, (marketLoop o s d1 mids initState [] false).combined = []) →
      (marketLoop o s d mids initState [] false).combined ≠ [] →
      (dateLoop o s mids (ds1 ++ d :: ds2) st).best_quotes =
        (marketLoop o s d mids initState [] false).combined ∧
      (dateLoop o s mids (ds1 ++ d :: ds2) st).used_date = d ∧
      (∀ a ∈ (dateLoop o s mids (ds1 ++ d :: ds2) st).attempts,
        a ∈ st.attempts ∨ a.1 ∈ ds1 ∨ a.1 = d) := by
  intro ds1
  induction ds1 with
  | nil =>
    intro d ds2 st hbq hds1 hhit
    rw [List.nil_append, dateLoop]
    have hind : (marketLoop o s d mids st [] false).combined =
        (marketLoop o s d mids initState [] false).combined ∧
        (marketLoop o s d mids st [] false).got_any =
        (marketLoop o s d mids initState [] false).got_any :=
      marketLoop_indep st initState
    have hcomb : (marketLoop o s d mids st [] false).combined ≠ [] := by
      rw [hind.1]; exact hhit
    by_cases hb : (!(marketLoop o s d mids st [] false).st.best_quotes.isEmpty) = true
    · rw [if_pos hb]
      rcases @marketLoop_states o s d mids st [] false with ⟨h1, h2⟩ | ⟨h1, h2, _⟩
      · rw [h1, hbq] at hb
        simp at hb
      · refine ⟨h1.trans hind.1, h2, ?_⟩
        intro a ha
        rcases marketLoop_attempts ha with h3 | h3
        · exact Or.inl h3
        · exact Or.inr (Or.inr h3)
    · rw [if_neg hb]
      have hgot : (marketLoop o s d mids st [] false).got_any = true :=
        marketLoop_got_inv (fun hx => absurd rfl hx) hcomb
      have hg : ((marketLoop o s d mids st [] false).got_any &&
          !(marketLoop o s d mids st [] false).combined.isEmpty) = true := by
        rw [hgot, Bool.true_and]
        cases hemp : (marketLoop o s d mids st [] false).combined.isEmpty
        · rfl
        · rw [List.isEmpty_iff] at hemp
          exact absurd hemp hcomb
      rw [if_pos hg]
      refine ⟨hind.1, rfl, ?_⟩
      intro a ha
      rcases marketLoop_attempts ha with h3 | h3
      · exact Or.inl h3
      · exact Or.inr (Or.inr h3)
  | cons d1 rest ih =>
    intro d ds2 st hbq hds1 hhit
    rw [List.cons_append, dateLoop]
    have hd1 : (marketLoop o s d1 mids initState [] false).combined = [] :=
      hds1 d1 (by simp)
    have hind : (marketLoop o s d1 mids st [] false).combined =
        (marketLoop o s d1 mids initState [] false).combined ∧
        (marketLoop o s d1 mids st [] false).got_any =
        (marketLoop o s d1 mids initState [] false).got_any :=
      marketLoop_indep st initState
    have hcomb : (marketLoop o s d1 mids st [] false).combined = [] := by
      rw [hind.1]; exact hd1
    have h5 := marketLoop_empty_state hs hcomb
    have hbF : ¬((!(marketLoop o s d1 mids st [] false).st.best_quotes.isEmpty) = true) := by
      rw [h5.1, hbq]
      simp
    rw [if_neg hbF]
    have hgF : ¬(((marketLoop o s d1 mids st [] false).got_any &&
        !(marketLoop o s d1 mids st [] false).combined.isEmpty) = true) := by
      rw [h5.2.2.2.2]
      simp
    rw [if_neg hgF]
    have hbq2 : (marketLoop o s d1 mids st [] false).st.best_quotes = [] :=
      h5.1.trans hbq
    have hds1r : ∀ dd ∈ rest, (marketLoop o s dd mids initState [] false).combined = [] :=
      fun dd hdd => hds1 dd (List.mem_cons_of_mem d1 hdd)
    obtain ⟨c1, c2, c3⟩ := ih hbq2 hds1r hhit
    refine ⟨c1, c2, ?_⟩
    intro a ha
    rcases c3 a ha with h6 | h6 | h6
    · rcases marketLoop_attempts h6 with h7 | h7
      · exact Or.inl h7
      · exact Or.inr (Or.inl (by rw [h7]; exact List.mem_cons_self d1 rest))
    · exact Or.inr (Or.inl (List.mem_cons_of_mem d1 h6))
    · exact Or.inr (Or.inr h6)

/-! ## Leftmost-match characterization of the sheet-date search -/

theorem matchLen_nil (pw : Bool) : matchLen pw [] = none := by
  cases pw <;> rfl

theorem matchLen_ne_nil {pw : Bool} {cs : Str} {n : Nat}
    (h : matchLen pw cs = some n) : cs ≠ [] := by
  intro he
  rw [he, matchLen_nil] at h
  cases h

theorem matchLen_pos {pw : Bool} {cs : Str} {n : Nat}
    (h : matchLen pw cs = some n) : 1 ≤ n := by
  rw [matchLen] at h
  split at h
  · cases h
  · split at h
    · cases h
    · next ml hml =>
      dsimp only at h
      split at h
      · cases h
      · next hws =>
        split at h
        · next n2 hd =>
          injection h with h
          have hne : (cs.drop ml).takeWhile isSpaceChar ≠ [] := by
            intro he
            exact hws (by rw [he]; rfl)
          have hlen : 0 < ((cs.drop ml).takeWhile isSpaceChar).length :=
            List.length_pos.mpr hne
          omega
        · cases h

theorem prevWordAtFrom_shift (pw : Bool) (c : Char) (rest : Str) (j : Nat) :
    prevWordAtFrom pw (c :: rest) (j + 1) = prevWordAtFrom (isWordChar c) rest j := by
  cases j <;> rfl

/-- The search matches at the least position at which the anchored pattern
matches, and fails only when no position matches. -/
theorem searchFrom_spec :
    ∀ (u : Str) (pw : Bool),
      (searchFrom pw u = none →
        ∀ i, matchLen (prevWordAtFrom pw u i) (u.drop i) = none) ∧
      (∀ s, searchFrom pw u = some s → ∃ i n,
        matchLen (prevWordAtFrom pw u i) (u.drop i) = some n ∧
        s = (u.drop i).take n ∧
        ∀ j < i, matchLen (prevWordAtFrom pw u j) (u.drop j) = none) := by
  intro u
  induction u with
  | nil =>
    intro pw
    constructor
    · intro _ i
      rw [List.drop_nil]
      exact matchLen_nil _
    · intro s hs
      cases hs
  | cons c rest ih =>
    intro pw
    constructor
    · intro hn i
      rw [searchFrom] at hn
      cases hm : matchLen pw (c :: rest) with
      | some n => rw [hm] at hn; cases hn
      | none =>
        rw [hm] at hn
        match i with
        | 0 => exact hm
        | j + 1 =>
          have hrec := (ih (isWordChar c)).1 hn j
          rw [prevWordAtFrom_shift, List.drop_succ_cons]
          exact hrec
    · intro s hs
      rw [searchFrom] at hs
      cases hm : matchLen pw (c :: rest) with
      | some n =>
        rw [hm] at hs
        injection hs with hs
        refine ⟨0, n, hm, hs.symm, ?_⟩
        intro j hj
        exact absurd hj (Nat.not_lt_zero j)
      | none =>
        rw [hm] at hs
        obtain ⟨i, n, h1, h2, h3⟩ := (ih (isWordChar c)).2 s hs
        refine ⟨i + 1, n, ?_, ?_, ?_⟩
        · rw [prevWordAtFrom_shift, List.drop_succ_cons]
          exact h1
        · rw [List.drop_succ_cons]
          exact h2
        · intro j hj
          match j, hj with
          | 0, _ => exact hm
          | k + 1, hj =>
            rw [prevWordAtFrom_shift, List.drop_succ_cons]
            exact h3 k (by omega)

/-- A non-empty sheet-date label is the leftmost `MONTH_DATE_RE` match of
the document text; an empty label means no position matches. -/
theorem parse_sheet_date_spec (t : Str) :
    (parse_sheet_date t = [] → ∀ i, matchLenAt t i = none) ∧
    (parse_sheet_date t ≠ [] → ∃ i n, matchLenAt t i = some n ∧ 1 ≤ n ∧
      parse_sheet_date t = (t.drop i).take n ∧ ∀ j < i, matchLenAt t j = none) := by
  cases hse : searchFrom false t with
  | none =>
    constructor
    · intro _ i
      exact (searchFrom_spec t false).1 hse i
    · intro hne
      rw [parse_sheet_date, hse] at hne
      exact absurd rfl hne
  | some s =>
    obtain ⟨i, n, h1, h2, h3⟩ := (searchFrom_spec t false).2 s hse
    have hp : parse_sheet_date t = s := by rw [parse_sheet_date, hse]; rfl
    have hn1 : 1 ≤ n := matchLen_pos h1
    have hsne : s ≠ [] := by
      rw [h2]
      have hdne : t.drop i ≠ [] := matchLen_ne_nil h1
      cases hdrop : t.drop i with
      | nil => exact absurd hdrop hdne
      | cons a l =>
        cases n with
        | zero => omega
        | succ m => simp
    constructor
    · intro he
      rw [hp] at he
      exact absurd he hsne
    · intro _
      exact ⟨i, n, h1, hn1, hp.trans h2, h3⟩

/-! ## Which wanted set the orchestrator passes to the parser -/

theorem tryMarket_calls_wanted {o : FetchOracle} {s : List Str} {d : Str} {m : Int}
    {st : LoopState} {c : QuoteMap} {g : Bool} {cR : CallRec}
    (h : cR ∈ (tryMarket o s d m st c g).st.calls) :
    cR ∈ st.calls ∨ cR.wantedArg = s := by
  rw [tryMarket_calls_eq] at h
  rcases ho : o d m with e | texts <;> rw [ho] at h
  · exact Or.inl h
  · rcases List.mem_append.mp h with h1 | h1
    · exact Or.inl h1
    · rcases List.mem_singleton.mp h1 with rfl
      exact Or.inr rfl

theorem marketLoop_calls_wanted {o : FetchOracle} {s : List Str} {d : Str} :
    ∀ {ms : List Int} {st : LoopState} {c : QuoteMap} {g : Bool} {cR : CallRec},
      cR ∈ (marketLoop o s d ms st c g).st.calls →
      cR ∈ st.calls ∨ cR.wantedArg = s := by
  intro ms
  induction ms with
  | nil => intro st c g cR h; exact Or.inl h
  | cons m rest ih =>
    intro st c g cR h
    rw [marketLoop] at h
    split at h
    · exact tryMarket_calls_wanted h
    · rcases ih h with h1 | h1
      · exact tryMarket_calls_wanted h1
      · exact Or.inr h1

theorem dateLoop_calls_wanted {o : FetchOracle} {s : List Str} {mids : List Int} :
    ∀ {dates : List Str} {st : LoopState} {cR : CallRec},
      cR ∈ (dateLoop o s mids dates st).calls →
      cR ∈ st.calls ∨ cR.wantedArg = s := by
  intro dates
  induction dates with
  | nil => intro st cR h; exact Or.inl h
  | cons date rest ih =>
    intro st cR h
    rw [dateLoop] at h
    by_cases hb : (!(marketLoop o s date mids st [] false).st.best_quotes.isEmpty) = true
    · rw [if_pos hb] at h
      exact marketLoop_calls_wanted h
    · rw [if_neg hb] at h
      by_cases hg : ((marketLoop o s date mids st [] false).got_any &&
          !(marketLoop o s date mids st [] false).combined.isEmpty) = true
      · rw [if_pos hg] at h
        exact marketLoop_calls_wanted h
      · rw [if_neg hg] at h
        rcases ih h with h1 | h1
        · exact marketLoop_calls_wanted h1
        · exact Or.inr h1

/-! ## Conditional helpers -/

theorem if_not_isEmpty {α β : Type _} [DecidableEq α] (l : List α) (a b : β) :
    (if (!l.isEmpty) = true then a else b) = if l = [] then b else a := by
  cases l <;> simp

theorem if_isEmpty {α β : Type _} [DecidableEq α] (l : List α) (a b : β) :
    (if l.isEmpty = true then a else b) = if l = [] then a else b := by
  cases l <;> simp

/-! ## Claims -/

/-- C1 (counterexample): in the two-market scenario the second parser
invocation happens while symbol A is already resolved in the per-date
combined mapping, yet the wanted set passed to the parser is the full
watchlist [A, B], not the unresolved set [B]. -/
theorem C1_counterexample :
    c1State.calls.length = 2 ∧
    (c1State.calls.getD 1 default).resolvedBefore = ["A".toList] ∧
    (c1State.calls.getD 1 default).wantedArg = ["A".toList, "B".toList] ∧
    (c1State.calls.getD 1 default).wantedArg ≠ ["B".toList] := by
  decide

/-- C1 (amended): on every fetch success, the orchestrator runs QuoteParser
with the FULL watchlist — already-resolved symbols included — and discards
re-parsed quotes for them only at the first-writer-wins merge. -/
theorem C1_full_watchlist_passed (o : FetchOracle) (s : List Str)
    (mids : List Int) (dates : List Str) (cR : CallRec)
    (h : cR ∈ (dateLoop o s mids dates initState).calls) :
    cR.wantedArg = s := by
  rcases dateLoop_calls_wanted h with h1 | h1
  · exact absurd h1 (List.not_mem_nil cR)
  · exact h1

/-- C1 (witness): the second recorded invocation of the scenario passed the
full watchlist. -/
theorem C1_witness :
    (⟨"D1".toList, 2, c1Syms, ["A".toList]⟩ : CallRec) ∈ c1State.calls ∧
    (⟨"D1".toList, 2, c1Syms, ["A".toList]⟩ : CallRec).wantedArg = c1Syms :=
  ⟨by decide,
    C1_full_watchlist_passed c1Oracle c1Syms [1, 2] ["D1".toList] _ (by decide)⟩

/-- C2: the numeric tokens of the line remainder are collected in order by
filtering (non-matching tokens are skipped, not terminators); the recorded
last price is the value of the second collected token when present, else of
the first, else absent; an anchored line records exactly that price; and on
the spec example the resolved price is 10.50. -/
theorem C2_positional_price :
    (∀ (toks : List Str) (idx0 : Nat),
      collectNums toks idx0 = (toks.drop (idx0 + 1)).filter isNumTok) ∧
    (∀ (toks : List Str) (idx0 : Nat), 2 ≤ (collectNums toks idx0).length →
      ∃ t v, (collectNums toks idx0).get? 1 = some t ∧ parseDecimal t = some v ∧
        linePrice toks idx0 = some v) ∧
    (∀ (toks : List Str) (idx0 : Nat), (collectNums toks idx0).length = 1 →
      ∃ t v, (collectNums toks idx0).get? 0 = some t ∧ parseDecimal t = some v ∧
        linePrice toks idx0 = some v) ∧
    (∀ (toks : List Str) (idx0 : Nat), collectNums toks idx0 = [] →
      linePrice toks idx0 = none) ∧
    (∀ (want : List Str) (aa line : Str) (rest : List Str) (out : QuoteMap)
      (sym0 : Str) (idx0 : Nat),
      findAnchor want out (splitWs (pyStrip line)) = some (sym0, idx0) →
      dictFind (parseLines want aa (line :: rest) out) sym0 =
        some ⟨sym0, linePrice (splitWs (pyStrip line)) idx0, aa, sourceTag⟩) ∧
    dictFind (parse_quotes ["AAA 10.25 10.50 +0.25 10.00 10.60 15000".toList]
        ["AAA".toList]).1 "AAA".toList =
      some ⟨"AAA".toList, some (mkRat 21 2), [], sourceTag⟩ := by
  refine ⟨fun toks idx0 => rfl, ?_, ?_, ?_, ?_, ?_⟩
  · intro toks idx0 h2
    have h1 : 1 < (collectNums toks idx0).length := h2
    have hget : (collectNums toks idx0).get? 1 =
        some ((collectNums toks idx0).get ⟨1, h1⟩) := List.get?_eq_get h1
    have hmem : (collectNums toks idx0).get ⟨1, h1⟩ ∈ collectNums toks idx0 :=
      List.get_mem _ 1 h1
    have hnum : isNumTok ((collectNums toks idx0).get ⟨1, h1⟩) = true :=
      List.of_mem_filter hmem
    obtain ⟨v, hv⟩ := isNumTok_parseDecimal hnum
    refine ⟨_, v, hget, hv, ?_⟩
    rw [linePrice]
    simp only [numAt, hget, hv]
  · intro toks idx0 h2
    have h1 : 0 < (collectNums toks idx0).length := by omega
    have hget : (collectNums toks idx0).get? 0 =
        some ((collectNums toks idx0).get ⟨0, h1⟩) := List.get?_eq_get h1
    have hmem : (collectNums toks idx0).get ⟨0, h1⟩ ∈ collectNums toks idx0 :=
      List.get_mem _ 0 h1
    have hnum : isNumTok ((collectNums toks idx0).get ⟨0, h1⟩) = true :=
      List.of_mem_filter hmem
    obtain ⟨v, hv⟩ := isNumTok_parseDecimal hnum
    have hnone : (collectNums toks idx0).get? 1 = none :=
      List.get?_eq_none.mpr (by omega)
    refine ⟨_, v, hget, hv, ?_⟩
    rw [linePrice]
    simp only [numAt, hget, hv, hnone]
  · intro toks idx0 h0
    rw [linePrice]
    simp only [numAt, h0, List.get?_nil]
  · intro want aa line rest out sym0 idx0 hanchor
    exact parseLines_record hanchor
  · decide

/-- C2 (witness): a line with at least two collected numeric tokens
records the value of the second one. -/
theorem C2_witness :
    2 ≤ (collectNums ["AAA".toList, "10.25".toList, "10.50".toList] 0).length ∧
    ∃ t v, (collectNums ["AAA".toList, "10.25".toList, "10.50".toList] 0).get? 1 =
        some t ∧ parseDecimal t = some v ∧
      linePrice ["AAA".toList, "10.25".toList, "10.50".toList] 0 = some v :=
  ⟨by decide, C2_positional_price.2.1 _ 0 (by decide)⟩

/-- C3: candidate dates run newest-first (today minus 0 .. lookback-1), and
the date loop adopts the per-date mapping of the first date whose market
loop resolves anything, tags the result with that date, and never attempts
any older date. -/
theorem C3_first_hit_date_wins :
    (∀ (today : Int) (lookback i : Nat), i < lookback →
      (latest_trading_date_iso today lookback).get? i = some (today - i)) ∧
    (∀ (o : FetchOracle) (s : List Str) (mids : List Int)
      (ds1 : List Str) (d : Str) (ds2 : List Str),
      s ≠ [] →
      (∀ d1 ∈ ds1, (marketLoop o s d1 mids initState [] false).combined = []) →
      (marketLoop o s d mids initState [] false).combined ≠ [] →
      (dateLoop o s mids (ds1 ++ d :: ds2) initState).best_quotes =
        (marketLoop o s d mids initState [] false).combined ∧
      (dateLoop o s mids (ds1 ++ d :: ds2) initState).used_date = d ∧
      (∀ a ∈ (dateLoop o s mids (ds1 ++ d :: ds2) initState).attempts,
        a.1 ∈ ds1 ∨ a.1 = d)) := by
  constructor
  · intro today lookback i h
    rw [latest_trading_date_iso, List.get?_map, List.get?_range h]
    rfl
  · intro o s mids ds1 d ds2 hs hds1 hhit
    obtain ⟨c1, c2, c3⟩ :=
      dateLoop_first_hit hs (show initState.best_quotes = [] from rfl) hds1 hhit
    refine ⟨c1, c2, ?_⟩
    intro a ha
    rcases c3 a ha with h1 | h1 | h1
    · exact absurd h1 (List.not_mem_nil a)
    · exact Or.inl h1
    · exact Or.inr h1

/-- C3 (witness): with D0 failing everywhere and D1 resolving only symbol A,
the loop adopts the partial D1 mapping and never attempts D2. -/
theorem C3_witness :
    (dateLoop c3Oracle c3Syms [1, 2]
        (["D0".toList] ++ "D1".toList :: ["D2".toList]) initState).best_quotes =
      (marketLoop c3Oracle c3Syms "D1".toList [1, 2] initState [] false).combined ∧
    (dateLoop c3Oracle c3Syms [1, 2]
        (["D0".toList] ++ "D1".toList :: ["D2".toList]) initState).used_date =
      "D1".toList ∧
    (∀ a ∈ (dateLoop c3Oracle c3Syms [1, 2]
        (["D0".toList] ++ "D1".toList :: ["D2".toList]) initState).attempts,
      a.1 ∈ ["D0".toList] ∨ a.1 = "D1".toList) :=
  C3_first_hit_date_wins.2 c3Oracle c3Syms [1, 2] ["D0".toList] "D1".toList
    ["D2".toList] (by decide) (by decide) (by decide)

/-- C4: first writer wins at both levels — a symbol bound in the running
mapping of a parse pass is never rebound by a later line; a symbol bound in
the per-date combined mapping is never rebound by the merge of a later
market, nor anywhere in the rest of the market loop; so a higher-priority
market's price survives any conflicting later price. -/
theorem C4_first_writer_wins :
    (∀ (want : List Str) (aa : Str) (lines : List Str) (out : QuoteMap)
      (k : Str) (q : Quote), dictFind out k = some q →
      dictFind (parseLines want aa lines out) k = some q) ∧
    (∀ (combined parsed : QuoteMap) (k : Str) (q : Quote),
      dictFind combined k = some q →
      dictFind (mergeInto combined parsed) k = some q) ∧
    (∀ (o : FetchOracle) (s : List Str) (d : Str) (ms : List Int)
      (st : LoopState) (c : QuoteMap) (g : Bool) (k : Str) (q : Quote),
      dictFind c k = some q →
      dictFind (marketLoop o s d ms st c g).combined k = some q) := by
  refine ⟨?_, ?_, ?_⟩
  · intro want aa lines out k q h
    exact parseLines_preserved h
  · intro combined parsed k q h
    exact mergeInto_preserved h
  · intro o s d ms st c g k q h
    exact marketLoop_combined_find h

/-- C4 (witness): an existing binding survives a later line that could
rebind the same symbol. -/
theorem C4_witness :
    dictFind [("A".toList, c4Quote)] "A".toList = some c4Quote ∧
    dictFind (parseLines ["A".toList] [] ["A 2.0".toList]
        [("A".toList, c4Quote)]) "A".toList = some c4Quote :=
  ⟨by decide, C4_first_writer_wins.1 ["A".toList] [] ["A 2.0".toList]
    [("A".toList, c4Quote)] "A".toList c4Quote (by decide)⟩

/-- C5: anchor selection — the first token anchors when its normalization
is wanted and unresolved; otherwise the anchor is the first such token from
position 1 onward; no qualifying token means the line yields no quote; and
on the spec example the anchor is the second token and the price 5.00. -/
theorem C5_anchor_selection :
    (∀ (want : List Str) (out : QuoteMap) (t0 : Str) (rest : List Str),
      wantedUnresolved want out t0 →
      findAnchor want out (t0 :: rest) = some (norm_sym t0, 0)) ∧
    (∀ (want : List Str) (out : QuoteMap) (toks : List Str),
      findAnchor want out toks = none ↔
        ∀ t ∈ toks, ¬wantedUnresolved want out t) ∧
    (∀ (want : List Str) (out : QuoteMap) (toks : List Str) (sym : Str) (i : Nat),
      findAnchor want out toks = some (sym, i) →
      ∃ t, toks.get? i = some t ∧ sym = norm_sym t ∧ sym ∈ want ∧
        dictFind out sym = none ∧
        (i = 0 ∨ (1 ≤ i ∧
          (∀ u, toks.get? 0 = some u → ¬wantedUnresolved want out u) ∧
          (∀ j, 1 ≤ j → j < i → ∀ u, toks.get? j = some u →
            ¬wantedUnresolved want out u)))) ∧
    (∀ (want : List Str) (aa line : Str) (rest : List Str) (out : QuoteMap),
      findAnchor want out (splitWs (pyStrip line)) = none →
      parseLines want aa (line :: rest) out = parseLines want aa rest out) ∧
    dictFind (parse_quotes ["Note AAA 5.00".toList] ["AAA".toList]).1
        "AAA".toList =
      some ⟨"AAA".toList, some (mkRat 5 1), [], sourceTag⟩ := by
  refine ⟨?_, ?_, ?_, ?_, ?_⟩
  · intro want out t0 rest h
    exact findAnchor_first rest h
  · intro want out toks
    exact findAnchor_none_iff
  · intro want out toks sym i h
    exact findAnchor_some_spec h
  · intro want aa line rest out h
    exact parseLines_skip h
  · decide

/-- C5 (witness): a qualifying first token anchors at position 0. -/
theorem C5_witness :
    wantedUnresolved ["AAA".toList] [] "AAA".toList ∧
    findAnchor ["AAA".toList] [] ("AAA".toList :: ["5.00".toList]) =
      some (norm_sym "AAA".toList, 0) :=
  ⟨by decide, C5_anchor_selection.1 ["AAA".toList] [] "AAA".toList
    ["5.00".toList] (by decide)⟩

/-- C6 (counterexample): a successful parse that returns the non-empty
label "March 4, 2024" but resolves no quotes does NOT update the
remembered label — contradicting "remembered for every successful parse
that returns a non-empty label, regardless of whether that parse resolved
any quotes". -/
theorem C6_counterexample :
    (parse_quotes ["March 4, 2024\nNotes only".toList] ["A".toList]).1 = [] ∧
    (parse_quotes ["March 4, 2024\nNotes only".toList] ["A".toList]).2 =
      "March 4, 2024".toList ∧
    c6State.calls.length = 1 ∧
    c6State.used_as_at = [] := by
  decide

/-- C6 (amended): the sheet-date label of a successful fetch is remembered
only when the parse also resolved at least one quote; with an empty parsed
mapping, or an empty label, the remembered label is unchanged. -/
theorem C6_label_remembered_only_with_quotes (o : FetchOracle) (s : List Str)
    (d : Str) (m : Int) (st : LoopState) (c : QuoteMap) (g : Bool)
    (texts : List Str) (ho : o d m = .ok texts) :
    (tryMarket o s d m st c g).st.used_as_at =
      (if (parse_quotes texts s).1 = [] then st.used_as_at
       else if (parse_quotes texts s).2 = [] then st.used_as_at
       else (parse_quotes texts s).2) := by
  rw [tryMarket_used_as_at_eq, ho]
  simp only [if_isEmpty]

/-- C6 (witness): in the label-only scenario the remembered label stays
unchanged after the attempt. -/
theorem C6_witness :
    c6Oracle "D1".toList 1 = .ok ["March 4, 2024\nNotes only".toList] ∧
    (tryMarket c6Oracle ["A".toList] "D1".toList 1 initState [] false).st.used_as_at =
      (if (parse_quotes ["March 4, 2024\nNotes only".toList] ["A".toList]).1 = []
       then initState.used_as_at
       else if (parse_quotes ["March 4, 2024\nNotes only".toList] ["A".toList]).2 = []
       then initState.used_as_at
       else (parse_quotes ["March 4, 2024\nNotes only".toList] ["A".toList]).2) :=
  ⟨rfl, C6_label_remembered_only_with_quotes c6Oracle ["A".toList] "D1".toList 1
    initState [] false _ rfl⟩

/-- C7: each output row follows its watchlist symbol in order; `as_at` is
the resolved quote's label when non-empty, else the last-known label, else
the tried date; `source` is the fixed tag regardless of resolution; and on
full exhaustion every row has empty price and `as_at` with the tag still
populated. -/
theorem C7_output_assembly :
    (∀ (symbols : List Str) (bq : QuoteMap) (ua ud : Str) (i : Nat) (sym : Str),
      symbols.get? i = some sym →
      (buildRows symbols bq ua ud).get? i = some
        ⟨sym,
         (match dictFind bq sym with
          | some q => q.last_price
          | none => none),
         (match dictFind bq sym with
          | some q => if q.as_at = [] then (if ua = [] then ud else ua) else q.as_at
          | none => if ua = [] then ud else ua),
         sourceTag⟩) ∧
    (∀ (o : FetchOracle) (symbols : List Str) (mids : List Int)
      (dates : List Str), symbols ≠ [] →
      (dateLoop o symbols mids dates initState).best_quotes = [] →
      ∀ r ∈ buildRows symbols (dateLoop o symbols mids dates initState).best_quotes
          (dateLoop o symbols mids dates initState).used_as_at
          (dateLoop o symbols mids dates initState).used_date,
        r.last_price = none ∧ r.as_at = [] ∧ r.source = sourceTag) := by
  constructor
  · intro symbols bq ua ud i sym h
    rw [buildRows, List.get?_map, h, Option.map_some']
    cases hfind : dictFind bq sym <;>
      simp only [hfind, if_not_isEmpty]
  · intro o symbols mids dates hs hempty r hr
    obtain ⟨ha, hd, _⟩ := dateLoop_exhausted hs hempty
    rcases List.mem_map.mp hr with ⟨sym, _, rfl⟩
    rw [hempty, ha, hd]
    simp [dictFind, initState]

/-- C7 (witness): an unresolved symbol with no known label falls back to
the tried date string, with the source tag populated. -/
theorem C7_witness :
    (["A".toList] : List Str).get? 0 = some "A".toList ∧
    (buildRows ["A".toList] [] [] "D".toList).get? 0 = some
      ⟨"A".toList,
       (match dictFind [] "A".toList with
        | some q => q.last_price
        | none => none),
       (match dictFind [] "A".toList with
        | some q => if q.as_at = [] then (if ([] : Str) = [] then "D".toList else [])
                    else q.as_at
        | none => if ([] : Str) = [] then "D".toList else []),
       sourceTag⟩ :=
  ⟨by decide, C7_output_assembly.1 ["A".toList] [] [] "D".toList 0 "A".toList
    (by decide)⟩

/-- C8: a fetch fault is caught, recorded in the diagnostics list, and
never breaks the loop; an empty watchlist exits with code 2 before any
retrieval; a non-empty watchlist always exits 0 with one output row per
symbol, whatever the oracle does. -/
theorem C8_fault_handling_and_exit :
    (∀ (o : FetchOracle) (s : List Str) (d : Str) (m : Int) (st : LoopState)
      (c : QuoteMap) (g : Bool) (e : Str), o d m = .error e →
      tryMarket o s d m st c g =
        ⟨{ st with
            attempts := st.attempts ++ [(d, m)]
            errors := st.errors ++ [mkErr d m e] }, c, g, false⟩) ∧
    (∀ (o : FetchOracle) (mids : List Int) (dates : List Str),
      (mainRun o [] mids dates).1 = 2) ∧
    (∀ (o : FetchOracle) (s : List Str) (mids : List Int) (dates : List Str),
      s ≠ [] → (mainRun o s mids dates).1 = 0 ∧
        (mainRun o s mids dates).2.1.length = s.length) := by
  refine ⟨?_, ?_, ?_⟩
  · intro o s d m st c g e ho
    rw [tryMarket, ho]
  · intro o mids dates
    rfl
  · intro o s mids dates hs
    have hne : ¬(s.isEmpty = true) := fun he => hs (List.isEmpty_iff.mp he)
    constructor
    · rw [mainRun, if_neg hne]
    · rw [mainRun, if_neg hne]
      simp [buildRows]

/-- C8 (witness): a failing fetch attempt only appends to the attempt and
error logs and continues. -/
theorem C8_witness :
    c8Oracle "D".toList 1 = .error "boom".toList ∧
    tryMarket c8Oracle ["A".toList] "D".toList 1 initState [] false =
      ⟨{ initState with
          attempts := initState.attempts ++ [("D".toList, 1)]
          errors := initState.errors ++ [mkErr "D".toList 1 "boom".toList] },
        [], false, false⟩ :=
  ⟨rfl, C8_fault_handling_and_exit.1 c8Oracle ["A".toList] "D".toList 1
    initState [] false "boom".toList rfl⟩

/-- C9: the returned label is the sheet date of the whole joined document
text; every quote of the parse carries exactly that label; and the label is
the leftmost match of the month-date pattern, empty exactly when no
position of the text matches. -/
theorem C9_sheet_date_uniform :
    (∀ (texts symbols : List Str),
      (parse_quotes texts symbols).2 = parse_sheet_date (joinPages texts)) ∧
    (∀ (texts symbols : List Str) (k : Str) (q : Quote),
      dictFind (parse_quotes texts symbols).1 k = some q →
      q.as_at = parse_sheet_date (joinPages texts)) ∧
    (∀ t : Str, parse_sheet_date t = [] → ∀ i, matchLenAt t i = none) ∧
    (∀ t : Str, parse_sheet_date t ≠ [] → ∃ i n, matchLenAt t i = some n ∧
      1 ≤ n ∧ parse_sheet_date t = (t.drop i).take n ∧
      ∀ j < i, matchLenAt t j = none) := by
  refine ⟨fun texts symbols => rfl, ?_, ?_, ?_⟩
  · intro texts symbols k q h
    have h2 : dictFind (parseLines (dedupStr [] symbols)
        (parse_sheet_date (joinPages texts))
        (splitlines (joinPages texts)) []) k = some q := h
    rcases parseLines_new_keys h2 with h3 | h3
    · simp [dictFind] at h3
    · exact h3.2.1
  · intro t h i
    exact (parse_sheet_date_spec t).1 h i
  · intro t h
    exact (parse_sheet_date_spec t).2 h

/-- C9 (witness): the quote of an example document carries the document's
sheet-date label. -/
theorem C9_witness :
    dictFind (parse_quotes ["March 4, 2024\nAAA 7.00".toList]
        ["AAA".toList]).1 "AAA".toList =
      some ⟨"AAA".toList, some (mkRat 7 1), "March 4, 2024".toList, sourceTag⟩ ∧
    (⟨"AAA".toList, some (mkRat 7 1), "March 4, 2024".toList, sourceTag⟩ : Quote).as_at =
      parse_sheet_date (joinPages ["March 4, 2024\nAAA 7.00".toList]) :=
  ⟨by decide, C9_sheet_date_uniform.2.1 ["March 4, 2024\nAAA 7.00".toList]
    ["AAA".toList] "AAA".toList _ (by decide)⟩

/-- C10: reading the watchlist only strips surrounding whitespace,
uppercases, deduplicates and sorts — trailing punctuation survives; while
every key the parser can ever produce is a normalized token, which never
ends in stripped punctuation and never contains whitespace; hence a
watchlist entry ending in one of `.,;` or containing whitespace is absent
from every mapping `parse_quotes` returns. -/
theorem C10_watchlist_punct_unresolvable :
    (∀ (lines : List Str) (sym : Str), sym ∈ read_watchlist lines ↔
      ∃ l ∈ lines, pyStrip l ≠ [] ∧ (pyStrip l).head? ≠ some '#' ∧
        sym = (pyStrip l).map Char.toUpper) ∧
    (∀ (symbols texts : List Str) (sym : Str),
      ((∃ c, sym.getLast? = some c ∧ isPunctChar c = true) ∨
        (∃ c ∈ sym, isSpaceChar c = true)) →
      dictFind (parse_quotes texts symbols).1 sym = none) := by
  constructor
  · intro lines sym
    exact mem_read_watchlist
  · intro symbols texts sym hsh
    cases hfind : dictFind (parse_quotes texts symbols).1 sym with
    | none => rfl
    | some q =>
      exfalso
      have h2 : dictFind (parseLines (dedupStr [] symbols)
          (parse_sheet_date (joinPages texts))
          (splitlines (joinPages texts)) []) sym = some q := hfind
      rcases parseLines_new_keys h2 with h3 | h3
      · simp [dictFind] at h3
      · obtain ⟨_, _, _, t, _, htns, hk, _⟩ := h3
        obtain ⟨hns, hlast⟩ := norm_sym_shape htns
        rcases hsh with ⟨c, hlastc, hcp⟩ | ⟨c, hcmem, hcsp⟩
        · rw [hk] at hlastc
          rw [hlast c hlastc] at hcp
          cases hcp
        · rw [hk] at hcmem
          rw [hns c hcmem] at hcsp
          cases hcsp

/-- C10 (witness): the entry "AB," ends in a comma and is never resolved,
even by a document line that displays the same text. -/
theorem C10_witness :
    (∃ c, ("AB,".toList : Str).getLast? = some c ∧ isPunctChar c = true) ∧
    dictFind (parse_quotes ["AB, 5.00".toList] ["AB,".toList]).1
      "AB,".toList = none :=
  ⟨⟨',', by decide, by decide⟩,
    C10_watchlist_punct_unresolvable.2 ["AB,".toList] ["AB, 5.00".toList]
      "AB,".toList (Or.inl ⟨',', by decide, by decide⟩)⟩

end JSE
